import Mathlib

/-!
Shallow embedding of the Chunky-Monkey chunking engine
(src/monkey/core/segmentation.py, src/monkey/core/chunker.py,
src/monkey/core/schema.py, src/monkey/validators/integrity.py) in Lean 4,
with theorems settling the frozen claims about it.

Strings are modelled as `String` / `List Char`; Python `int` as `Int`
(token budgets and counts) or `Nat` (character offsets, which the code
only ever computes as non-negative indices); Python character classes
(`str.isspace`, `\s`, `\w`, `[A-Z]` under `re.IGNORECASE`, `str.isalpha`)
are modelled over their ASCII content, which covers every input the
claims exercise.  Fallible code (the `range(0, n, 0)` `ValueError` that
`_hard_split` hits when `max_tokens == 0`) is modelled with `Option`.
-/

namespace Monkey

/-! ## Python string primitives -/

/-- Python `str.isspace` / regex `\s` over ASCII: space, tab, newline,
carriage return, vertical tab, form feed. -/
def pyIsSpace (c : Char) : Bool :=
  c = ' ' || c = '\t' || c = '\n' || c = '\r' || c = '\x0b' || c = '\x0c'

/-- ASCII uppercase letter, the class `[A-Z]` without `re.IGNORECASE`. -/
def isUpperAscii (c : Char) : Bool := 'A' ≤ c && c ≤ 'Z'

/-- ASCII lowercase letter. -/
def isLowerAscii (c : Char) : Bool := 'a' ≤ c && c ≤ 'z'

/-- ASCII letter: Python `str.isalpha`, and `[A-Z]` or `[a-z]` under
`re.IGNORECASE`, over ASCII. -/
def isAlphaAscii (c : Char) : Bool := isUpperAscii c || isLowerAscii c

/-- ASCII digit, the classes `\d` and `[0-9]`. -/
def isDigitAscii (c : Char) : Bool := '0' ≤ c && c ≤ '9'

/-- Regex word character `\w` = `[a-zA-Z0-9_]` over ASCII. -/
def isWordChar (c : Char) : Bool := isAlphaAscii c || isDigitAscii c || c = '_'

/-- The class `[a-zA-Z0-9_-]` used by the filename false-ending pattern. -/
def isWordCharHyphen (c : Char) : Bool := isWordChar c || c = '-'

/-- Python `str.lower` over ASCII (also models `re.IGNORECASE` matching by
comparing lowercased text with lowercase literals). -/
def toLowerAscii (c : Char) : Char :=
  if isUpperAscii c then Char.ofNat (c.toNat + 32) else c

/-- Lowercase a character list. -/
def lowerList (cs : List Char) : List Char := cs.map toLowerAscii

/-- Python `str.strip()` (no arguments): drop whitespace from both ends. -/
def pyStrip (cs : List Char) : List Char :=
  ((cs.dropWhile pyIsSpace).reverse.dropWhile pyIsSpace).reverse

/-- Python slicing `text[a:b]` (for `a ≤ b`; the code only slices forward). -/
def slice (cs : List Char) (a b : Nat) : List Char := (cs.drop a).take (b - a)

/-- Indexing `text[i]`; out of range yields NUL, which belongs to no
character class the model uses, so a guarded Python access and its
unguarded translation agree. -/
def charAt (cs : List Char) (i : Nat) : Char := cs.getD i '\x00'

/-- Length of the maximal run of characters satisfying `p` starting at
index `i` (how far a `while`-loop or a greedy `X*` advances). -/
def runLength (p : Char → Bool) (cs : List Char) (i : Nat) : Nat :=
  ((cs.drop i).takeWhile p).length

/-- The recursion of `pyWords` on an explicit fuel (structural, so that
the kernel can evaluate it); `fuel = cs.length` always suffices. -/
def pyWordsF : Nat → List Char → List (List Char)
  | 0, _ => []
  | fuel + 1, cs =>
    match cs.dropWhile pyIsSpace with
    | [] => []
    | c :: rest =>
      (c :: rest).takeWhile (fun ch => !pyIsSpace ch)
        :: pyWordsF fuel ((c :: rest).dropWhile (fun ch => !pyIsSpace ch))

/-- Python `str.split()` with no separator: whitespace-delimited words. -/
def pyWords (cs : List Char) : List (List Char) := pyWordsF cs.length cs

/-- One rewriting pass of Python `str.replace` for a *non-empty* needle
`n :: ntail`: scan left to right, replacing every occurrence (the fuel
is structural; `fuel = cs.length` suffices). -/
def replaceCoreF (n : Char) (ntail rep : List Char) : Nat → List Char → List Char
  | 0, cs => cs
  | _, [] => []
  | fuel + 1, c :: rest =>
    if (n :: ntail).isPrefixOf (c :: rest) then
      rep ++ replaceCoreF n ntail rep fuel (rest.drop ntail.length)
    else
      c :: replaceCoreF n ntail rep fuel rest

/-- `str.replace` scan for a non-empty needle. -/
def replaceCore (n : Char) (ntail rep cs : List Char) : List Char :=
  replaceCoreF n ntail rep cs.length cs

/-- Python `str.replace(needle, rep)` (all occurrences; the empty needle
inserts `rep` at every position, as Python does). -/
def pyReplace (s needle rep : String) : String :=
  match needle.data with
  | [] => ⟨rep.data ++ (s.data.map (fun c => c :: rep.data)).flatten⟩
  | n :: ntail => ⟨replaceCore n ntail rep.data s.data⟩

/-- Decimal digit character (`str(n)` builds from these). -/
def digitChar (n : Nat) : Char := Char.ofNat (48 + n)

/-- The decimal digits of `n`, least significant first (the fuel is
structural; `fuel = n + 1` suffices). -/
def natDigitsRevF : Nat → Nat → List Char
  | 0, _ => []
  | fuel + 1, n =>
    if n < 10 then [digitChar n]
    else digitChar (n % 10) :: natDigitsRevF fuel (n / 10)

/-- The decimal digits of `n`, least significant first. -/
def natDigitsRev (n : Nat) : List Char := natDigitsRevF (n + 1) n

/-- Python `str(n)` for a non-negative int. -/
def pyNatRepr (n : Nat) : String := ⟨(natDigitsRev n).reverse⟩

/-- Python `str(i)` for an int. -/
def pyIntRepr (i : Int) : String :=
  if i < 0 then "-" ++ pyNatRepr i.natAbs else pyNatRepr i.natAbs

/-! ## Sentence segmentation (src/monkey/core/segmentation.py) -/

/-- A sentence with position information (`Sentence` dataclass).  The
source's field `end` is a Lean keyword and is rendered `endPos`. -/
structure Sentence where
  text : String
  start : Nat
  endPos : Nat
deriving Repr, DecidableEq

/-- The `ABBREVIATIONS` set, in source order. -/
def ABBREVIATIONS : List String :=
  ["mr", "mrs", "ms", "dr", "prof", "sr", "jr", "rev", "hon",
   "ph", "m", "b", "d",
   "vs", "etc", "al", "eg", "ie", "cf", "viz", "approx",
   "inc", "ltd", "corp", "co", "llc",
   "jan", "feb", "mar", "apr", "jun", "jul", "aug", "sep", "sept", "oct", "nov", "dec",
   "ft", "in", "lb", "oz", "pt", "qt", "gal", "mi", "km", "cm", "mm", "kg", "mg",
   "no", "nos", "vol", "vols", "dept", "est", "fig", "figs", "govt",
   "min", "max", "avg", "ca", "c",
   "www", "http", "https", "ftp"]

/-- First `FALSE_ENDINGS` alternative, `(?:^|(?<=\s))(?:ABBREV)\.` under
`re.IGNORECASE`: an abbreviation at a word start followed by a period.  At
a given position at most one abbreviation can be followed by the period,
so the regex alternation order is immaterial. -/
def matchAbbrevDot (cs : List Char) (p : Nat) : Option Nat :=
  if p = 0 || pyIsSpace (charAt cs (p - 1)) then
    ABBREVIATIONS.findSome? fun a =>
      if lowerList (slice cs p (p + a.length)) = a.data && charAt cs (p + a.length) = '.'
      then some (p + a.length + 1) else none
  else none

/-- Second alternative, `(?:^|\s)[A-Z]\.`: a single letter then a period
(`[A-Z]` matches any ASCII letter because the pattern is compiled with
`re.IGNORECASE`); the `^` branch is preferred, and the `\s` branch
consumes the whitespace character. -/
def matchInitialDot (cs : List Char) (p : Nat) : Option Nat :=
  if p = 0 && isAlphaAscii (charAt cs 0) && charAt cs 1 = '.' then some 2
  else if pyIsSpace (charAt cs p) && isAlphaAscii (charAt cs (p + 1))
      && charAt cs (p + 2) = '.' then some (p + 3)
  else none

/-- Third alternative, `\d+\.\d+`: a decimal number. -/
def matchDecimal (cs : List Char) (p : Nat) : Option Nat :=
  let d := runLength isDigitAscii cs p
  if d = 0 then none
  else if charAt cs (p + d) = '.' then
    let e := runLength isDigitAscii cs (p + d + 1)
    if e = 0 then none else some (p + d + 1 + e)
  else none

/-- The `[^\s]*[^\s.!?]` tail of the two URL alternatives, starting at `q`:
greedy, so it ends after the last character of the maximal non-whitespace
run from `q` that is not `.`, `!` or `?`; it fails when the run has no
such character. -/
def urlTail (cs : List Char) (q : Nat) : Option Nat :=
  let run := (cs.drop q).takeWhile (fun c => !pyIsSpace c)
  match run.reverse.findIdx? (fun c => !(c = '.' || c = '!' || c = '?')) with
  | some r => some (q + run.length - r)
  | none => none

/-- Fourth alternative, `https?://[^\s]*[^\s.!?]` (the optional `s` is
tried first, then backtracked). -/
def matchHttpUrl (cs : List Char) (p : Nat) : Option Nat :=
  if lowerList (slice cs p (p + 4)) = "http".data then
    let withS : Option Nat :=
      if toLowerAscii (charAt cs (p + 4)) = 's' && slice cs (p + 5) (p + 8) = "://".data
      then urlTail cs (p + 8) else none
    match withS with
    | some e => some e
    | none =>
      if slice cs (p + 4) (p + 7) = "://".data then urlTail cs (p + 7) else none
  else none

/-- Fifth alternative, `www\.[^\s]*[^\s.!?]`. -/
def matchWwwUrl (cs : List Char) (p : Nat) : Option Nat :=
  if lowerList (slice cs p (p + 4)) = "www.".data then urlTail cs (p + 4) else none

/-- Sixth alternative, `[a-zA-Z0-9_-]+\.[a-z]{2,4}(?=\s|$)`: a filename
with an extension (2–4 letters, any case under `re.IGNORECASE`) followed
by whitespace or end of input.  Only the maximal letter run can satisfy
the lookahead, so the run length must itself be between 2 and 4. -/
def matchFileExt (cs : List Char) (p : Nat) : Option Nat :=
  let w := runLength isWordCharHyphen cs p
  if w = 0 then none
  else if charAt cs (p + w) = '.' then
    let L := runLength isAlphaAscii cs (p + w + 1)
    if 2 ≤ L && L ≤ 4 && (p + w + 1 + L = cs.length || pyIsSpace (charAt cs (p + w + 1 + L)))
    then some (p + w + 1 + L) else none
  else none

/-- Seventh alternative, `\.{2,}`: an ellipsis of two or more dots. -/
def matchEllipsis (cs : List Char) (p : Nat) : Option Nat :=
  let d := runLength (fun c => c = '.') cs p
  if 2 ≤ d then some (p + d) else none

/-- A match of `FALSE_ENDING_PATTERN` starting at `p`: the alternatives in
source order, first match wins (regex alternation preference). -/
def falseEndingMatchAt (cs : List Char) (p : Nat) : Option Nat :=
  (matchAbbrevDot cs p).orElse fun _ =>
  (matchInitialDot cs p).orElse fun _ =>
  (matchDecimal cs p).orElse fun _ =>
  (matchHttpUrl cs p).orElse fun _ =>
  (matchWwwUrl cs p).orElse fun _ =>
  (matchFileExt cs p).orElse fun _ =>
  matchEllipsis cs p

/-- `re.finditer` over a position-based matcher, on an explicit
structural fuel: try each start position left to right, emit
non-overlapping matches, resume after each match (every matcher here
consumes at least one character, so `max e (i+1)` equals the Python
resume position `e`).  `fuel = cs.length - i` always suffices. -/
def scanFromF (matchAt : List Char → Nat → Option Nat) (cs : List Char) :
    Nat → Nat → List (Nat × Nat)
  | 0, _ => []
  | fuel + 1, i =>
    if i < cs.length then
      match matchAt cs i with
      | some e => (i, e) :: scanFromF matchAt cs fuel (max e (i + 1))
      | none => scanFromF matchAt cs fuel (i + 1)
    else []

/-- `re.finditer` from position `i`. -/
def scanFrom (matchAt : List Char → Nat → Option Nat) (cs : List Char) (i : Nat) :
    List (Nat × Nat) :=
  scanFromF matchAt cs (cs.length - i) i

/-- `_is_false_ending(text, pos)`: take the ±(50,10) context window, scan
it with `FALSE_ENDING_PATTERN`, report true when a match covers the
relative position; otherwise look back over letters for an abbreviation
word just before the period. -/
def is_false_ending (cs : List Char) (pos : Nat) : Bool :=
  let start := pos - 50
  let stop := min cs.length (pos + 10)
  let context := slice cs start stop
  let rel := pos - start
  if (scanFrom falseEndingMatchAt context 0).any (fun m => m.1 ≤ rel && rel < m.2) then
    true
  else
    let wlen := ((context.take rel).reverse.takeWhile isAlphaAscii).length
    let word := lowerList (slice context (rel - wlen) rel)
    ABBREVIATIONS.any (fun a => a.data = word)

/-- A match of `SENTENCE_BOUNDARY_PATTERN` at `i`: `([.!?])(\s+)` with a
lookahead for `[A-Z"'([0-9]`; returns the match end (after the
whitespace run). -/
def matchBoundaryAt (cs : List Char) (i : Nat) : Option Nat :=
  if charAt cs i = '.' || charAt cs i = '!' || charAt cs i = '?' then
    let w := runLength pyIsSpace cs (i + 1)
    if 1 ≤ w && i + 1 + w < cs.length
        && (isUpperAscii (charAt cs (i + 1 + w)) || charAt cs (i + 1 + w) = '"'
            || charAt cs (i + 1 + w) = '\'' || charAt cs (i + 1 + w) = '('
            || charAt cs (i + 1 + w) = '[' || isDigitAscii (charAt cs (i + 1 + w)))
    then some (i + 1 + w) else none
  else none

/-- `while actual_start < len(text) and text[actual_start].isspace()`. -/
def skipSpaces (cs : List Char) (i : Nat) : Nat := i + runLength pyIsSpace cs i

/-- The body of `segment_sentences`' boundary loop plus the trailing-text
step, processing the remaining boundary matches with the sentences
accumulated so far and the current sentence start. -/
def segLoop (cs : List Char) (acc : List Sentence) (cur : Nat) :
    List (Nat × Nat) → List Sentence
  | [] =>
    let remaining := pyStrip (slice cs cur cs.length)
    if remaining.isEmpty then acc
    else acc ++ [⟨⟨remaining⟩, skipSpaces cs cur, cs.length⟩]
  | m :: ms =>
    if is_false_ending cs m.1 then segLoop cs acc cur ms
    else
      let endPos := m.1 + 1
      let stext := pyStrip (slice cs cur endPos)
      let acc := if stext.isEmpty then acc
        else acc ++ [⟨⟨stext⟩, skipSpaces cs cur, endPos⟩]
      segLoop cs acc m.2 ms

/-- `segment_sentences(text)` over a character list. -/
def segmentSentencesL (cs : List Char) : List Sentence :=
  if (pyStrip cs).isEmpty then []
  else segLoop cs [] 0 (scanFrom matchBoundaryAt cs 0)

/-- `segment_sentences(text)`. -/
def segment_sentences (text : String) : List Sentence :=
  segmentSentencesL text.data

/-! ## Code-block protection (src/monkey/core/chunker.py) -/

/-- One extracted fenced block: the `(code, start, end, placeholder)`
tuple of `_extract_code_blocks`. -/
structure CodeBlock where
  code : String
  start : Nat
  stop : Nat
  placeholder : String
deriving Repr, DecidableEq

/-- Fuel-based search for the closing fence (`fuel = cs.length - i`
suffices). -/
def findCloseFenceF (cs : List Char) : Nat → Nat → Option Nat
  | 0, _ => none
  | fuel + 1, i =>
    if i < cs.length then
      if charAt cs (i - 1) = '\n' && slice cs i (i + 3) = "```".data then some i
      else findCloseFenceF cs fuel (i + 1)
    else none

/-- The closing fence of `CODE_BLOCK_PATTERN`: the least `r ≥ i` with a
newline just before it and three backticks at it (the non-greedy `.*?`
under `re.DOTALL` stops at the first line-start fence). -/
def findCloseFence (cs : List Char) (i : Nat) : Option Nat :=
  findCloseFenceF cs (cs.length - i) i

/-- A match of `CODE_BLOCK_PATTERN` = `^```[\w]*\n.*?^```` (MULTILINE,
DOTALL) starting at `p`: a line-start fence, an optional language word,
a newline, then anything up to the next line-start fence. -/
def matchCodeBlockAt (cs : List Char) (p : Nat) : Option Nat :=
  if (p = 0 || charAt cs (p - 1) = '\n') && slice cs p (p + 3) = "```".data then
    let w := runLength isWordChar cs (p + 3)
    if charAt cs (p + 3 + w) = '\n' then
      match findCloseFence cs (p + 3 + w + 1) with
      | some r => some (r + 3)
      | none => none
    else none
  else none

/-- `_extract_code_blocks(text)`: every pattern match, with the
placeholder `__CODE_BLOCK_{i}__` for the i-th. -/
def extract_code_blocks (cs : List Char) : List CodeBlock :=
  (scanFrom matchCodeBlockAt cs 0).enum.map fun im =>
    ⟨⟨slice cs im.2.1 im.2.2⟩, im.2.1, im.2.2,
     "__CODE_BLOCK_" ++ pyNatRepr im.1 ++ "__"⟩

/-- `_protect_code_blocks(text)`: replace blocks by placeholders (in
reverse source order, so earlier offsets stay valid) and record the
placeholder→code map in that insertion order (Python dicts preserve it,
and `_restore_code_blocks` iterates it). -/
def protect_code_blocks (preserve : Bool) (cs : List Char) :
    List Char × List (String × String) :=
  if !preserve then (cs, [])
  else
    let blocks := extract_code_blocks cs
    let protectedText := blocks.reverse.foldl
      (fun acc b => acc.take b.start ++ b.placeholder.data ++ acc.drop b.stop) cs
    (protectedText, blocks.reverse.map fun b => (b.placeholder, b.code))

/-- `_restore_code_blocks(text, replacements)`. -/
def restore_code_blocks (text : String) (replacements : List (String × String)) :
    String :=
  replacements.foldl (fun result pc => pyReplace result pc.1 pc.2) text

/-! ## SHA-256 (Python `hashlib.sha256`, per FIPS 180-4) and chunk ids
(src/monkey/core/schema.py) -/

/-- Right rotation of a 32-bit word. -/
def rotr32 (n w : Nat) : Nat := ((w >>> n) ||| (w <<< (32 - n))) % 4294967296

/-- SHA-256 Σ₀. -/
def bSig0 (w : Nat) : Nat := rotr32 2 w ^^^ rotr32 13 w ^^^ rotr32 22 w

/-- SHA-256 Σ₁. -/
def bSig1 (w : Nat) : Nat := rotr32 6 w ^^^ rotr32 11 w ^^^ rotr32 25 w

/-- SHA-256 σ₀. -/
def sSig0 (w : Nat) : Nat := rotr32 7 w ^^^ rotr32 18 w ^^^ (w >>> 3)

/-- SHA-256 σ₁. -/
def sSig1 (w : Nat) : Nat := rotr32 17 w ^^^ rotr32 19 w ^^^ (w >>> 10)

/-- SHA-256 Ch. -/
def shaCh (e f g : Nat) : Nat := (e &&& f) ^^^ ((e ^^^ 4294967295) &&& g)

/-- SHA-256 Maj. -/
def shaMaj (a b c : Nat) : Nat := (a &&& b) ^^^ (a &&& c) ^^^ (b &&& c)

/-- The 64 SHA-256 round constants. -/
def shaK : List Nat :=
  [1116352408, 1899447441, 3049323471, 3921009573, 961987163, 1508970993,
   2453635748, 2870763221, 3624381080, 310598401, 607225278, 1426881987,
   1925078388, 2162078206, 2614888103, 3248222580, 3835390401, 4022224774,
   264347078, 604807628, 770255983, 1249150122, 1555081692, 1996064986,
   2554220882, 2821834349, 2952996808, 3210313671, 3336571891, 3584528711,
   113926993, 338241895, 666307205, 773529912, 1294757372, 1396182291,
   1695183700, 1986661051, 2177026350, 2456956037, 2730485921, 2820302411,
   3259730800, 3345764771, 3516065817, 3600352804, 4094571909, 275423344,
   430227734, 506948616, 659060556, 883997877, 958139571, 1322822218,
   1537002063, 1747873779, 1955562222, 2024104815, 2227730452, 2361852424,
   2428436474, 2756734187, 3204031479, 3329325298]

/-- The SHA-256 working state (eight 32-bit words). -/
structure ShaState where
  a : Nat
  b : Nat
  c : Nat
  d : Nat
  e : Nat
  f : Nat
  g : Nat
  h : Nat

/-- The SHA-256 initial hash value. -/
def shaH0 : ShaState :=
  ⟨0x6a09e667, 0xbb67ae85, 0x3c6ef372, 0xa54ff53a, 0x510e527f, 0x9b05688c, 0x1f83d9ab, 0x5be0cd19⟩

/-- Big-endian 8-byte encoding of the message bit length. -/
def be64 (n : Nat) : List Nat :=
  [n >>> 56 % 256, n >>> 48 % 256, n >>> 40 % 256, n >>> 32 % 256,
   n >>> 24 % 256, n >>> 16 % 256, n >>> 8 % 256, n % 256]

/-- SHA-256 padding: append `0x80`, zeros to 56 mod 64, then the 64-bit
big-endian bit length. -/
def sha256pad (msg : List Nat) : List Nat :=
  let l := msg.length
  let zeros := (56 + 64 - (l + 1) % 64) % 64
  msg ++ [0x80] ++ List.replicate zeros 0 ++ be64 (8 * l)

/-- Fuel-based block splitting (`fuel = msg.length` suffices). -/
def toBlocksF : Nat → List Nat → List (List Nat)
  | 0, _ => []
  | fuel + 1, msg =>
    if msg = [] then []
    else msg.take 64 :: toBlocksF fuel (msg.drop 64)

/-- Split the padded message into 64-byte blocks. -/
def toBlocks (msg : List Nat) : List (List Nat) := toBlocksF msg.length msg

/-- The first sixteen 32-bit message-schedule words of a block. -/
def wordsOfBlock (block : List Nat) : List Nat :=
  (List.range 16).map fun i =>
    charAt0 i
where charAt0 (i : Nat) : Nat :=
  block.getD (4 * i) 0 * 16777216 + block.getD (4 * i + 1) 0 * 65536
    + block.getD (4 * i + 2) 0 * 256 + block.getD (4 * i + 3) 0

/-- Fuel-based message-schedule extension (`fuel = 64 - w.length`
suffices). -/
def extendScheduleF : Nat → List Nat → List Nat
  | 0, w => w
  | fuel + 1, w =>
    if w.length < 64 then
      extendScheduleF fuel (w ++ [(sSig1 (w.getD (w.length - 2) 0) + w.getD (w.length - 7) 0
        + sSig0 (w.getD (w.length - 15) 0) + w.getD (w.length - 16) 0) % 4294967296])
    else w

/-- Extend the message schedule to 64 words. -/
def extendSchedule (w : List Nat) : List Nat := extendScheduleF (64 - w.length) w

/-- One SHA-256 round. -/
def shaRound (st : ShaState) (kw : Nat × Nat) : ShaState :=
  let t1 := (st.h + bSig1 st.e + shaCh st.e st.f st.g + kw.1 + kw.2) % 4294967296
  let t2 := (bSig0 st.a + shaMaj st.a st.b st.c) % 4294967296
  ⟨(t1 + t2) % 4294967296, st.a, st.b, st.c, (st.d + t1) % 4294967296, st.e, st.f, st.g⟩

/-- Process one 64-byte block. -/
def shaBlock (H : ShaState) (block : List Nat) : ShaState :=
  let w := extendSchedule (wordsOfBlock block)
  let st := (shaK.zip w).foldl shaRound H
  ⟨(H.a + st.a) % 4294967296, (H.b + st.b) % 4294967296, (H.c + st.c) % 4294967296,
   (H.d + st.d) % 4294967296, (H.e + st.e) % 4294967296, (H.f + st.f) % 4294967296,
   (H.g + st.g) % 4294967296, (H.h + st.h) % 4294967296⟩

/-- Big-endian bytes of a 32-bit word. -/
def wordBytes (w : Nat) : List Nat :=
  [w >>> 24 % 256, w >>> 16 % 256, w >>> 8 % 256, w % 256]

/-- SHA-256 digest (32 bytes) of a byte string. -/
def sha256 (msg : List Nat) : List Nat :=
  let st := (toBlocks (sha256pad msg)).foldl shaBlock shaH0
  wordBytes st.a ++ wordBytes st.b ++ wordBytes st.c ++ wordBytes st.d
    ++ wordBytes st.e ++ wordBytes st.f ++ wordBytes st.g ++ wordBytes st.h

/-- The lowercase hexadecimal digits (of `hexdigest`). -/
def hexDigits : List Char :=
  ['0', '1', '2', '3', '4', '5', '6', '7', '8', '9']
    ++ ['a', 'b', 'c', 'd', 'e', 'f']

/-- The hex character of a nibble. -/
def hexChar (n : Nat) : Char := hexDigits.getD n '0'

/-- `hexdigest()`: two hex characters per byte. -/
def hexOfBytes (bytes : List Nat) : List Char :=
  bytes.flatMap fun b => [hexChar (b / 16), hexChar (b % 16)]

/-- UTF-8 encoding of one character (Python `str.encode("utf-8")`). -/
def utf8Char (c : Char) : List Nat :=
  let n := c.toNat
  if n < 0x80 then [n]
  else if n < 0x800 then [0xc0 + n / 0x40, 0x80 + n % 0x40]
  else if n < 0x10000 then
    [0xe0 + n / 0x1000, 0x80 + n / 0x40 % 0x40, 0x80 + n % 0x40]
  else
    [0xf0 + n / 0x40000, 0x80 + n / 0x1000 % 0x40, 0x80 + n / 0x40 % 0x40, 0x80 + n % 0x40]

/-- UTF-8 encoding of a string. -/
def utf8Encode (s : String) : List Nat := s.data.flatMap utf8Char

/-- Python `str((a, b))` and `str(None)` for the `position` argument of
`_generate_chunk_id` (an `f"{...}"` interpolation calls `str`). -/
def posReprStr : Option (Int × Int) → String
  | none => "None"
  | some ab => "(" ++ pyIntRepr ab.1 ++ ", " ++ pyIntRepr ab.2 ++ ")"

/-- The pre-hash content string `f"{text}|{position}"`. -/
def chunkIdContent (text : String) (position : Option (Int × Int)) : String :=
  text ++ "|" ++ posReprStr position

/-- `_generate_chunk_id(text, position)`: the first 16 hex characters of
the SHA-256 of the content string. -/
def generate_chunk_id (text : String) (position : Option (Int × Int)) : String :=
  ⟨(hexOfBytes (sha256 (utf8Encode (chunkIdContent text position)))).take 16⟩

/-- `ChunkMetadata` (frozen dataclass).  `custom` is a string-keyed map
the engine never populates. -/
structure ChunkMetadata where
  source : Option String := none
  position : Option (Int × Int) := none
  section_header : Option String := none
  parent_chunk_id : Option String := none
  chunk_index : Option Nat := none
  total_chunks : Option Nat := none
  custom : List (String × String) := []
deriving Repr, DecidableEq

/-- `with_update(total_chunks=t)`: immutable copy with one field set. -/
def ChunkMetadata.withTotalChunks (m : ChunkMetadata) (t : Nat) : ChunkMetadata :=
  { m with total_chunks := some t }

/-- `Chunk` (frozen dataclass). -/
structure Chunk where
  text : String
  metadata : ChunkMetadata
  token_counts : List (String × Int)
  chunk_id : String
deriving Repr, DecidableEq

/-- Chunk construction as the engine performs it: `chunk_id` is never
passed, so `__post_init__` derives it from the text and position. -/
def mkChunk (text : String) (metadata : ChunkMetadata)
    (token_counts : List (String × Int)) : Chunk :=
  ⟨text, metadata, token_counts, generate_chunk_id text metadata.position⟩

/-! ## Tokenizers (src/monkey/tokenizers) -/

/-- The `Tokenizer` protocol: name, token counting, and an encode/decode
pair used by `_hard_split`. -/
structure Tokenizer where
  name : String
  count_tokens : String → Int
  encode : String → List Int
  decode : List Int → String

/-- `CharacterTokenizer()` at its default `chars_per_token=1.0`
(`int(len(text)/1.0) = len(text)` exactly): counting is
`max(1, len(text))`, encode/decode are the Unicode code points. -/
def characterTokenizer : Tokenizer where
  name := "chars"
  count_tokens := fun s => max 1 (s.length : Int)
  encode := fun s => s.data.map fun c => (c.toNat : Int)
  decode := fun ts => ⟨ts.map fun t => Char.ofNat t.natAbs⟩

/-! ## The chunk assembler (src/monkey/core/chunker.py) -/

/-- `range(0, len, step)` for a positive step: the slice start offsets of
`_hard_split`. -/
def rangeStep (len step : Nat) : List Nat :=
  (List.range ((len + step - 1) / step)).map (· * step)

/-- `_hard_split(text, max_tokens)`: encode, slice into runs of at most
`max_tokens` units, decode each run.  `none` models the `ValueError`
Python raises from `range(0, n, 0)` when `max_tokens == 0`; a negative
`max_tokens` makes the range empty, silently yielding no pieces. -/
def hard_split (tok : Tokenizer) (text : String) (max_tokens : Int) :
    Option (List String) :=
  let tokens := tok.encode text
  if (tokens.length : Int) ≤ max_tokens then some [text]
  else if max_tokens = 0 then none
  else if max_tokens < 0 then some []
  else some ((rangeStep tokens.length max_tokens.toNat).map fun i =>
    tok.decode ((tokens.drop i).take max_tokens.toNat))

/-- The backward walk of `_get_overlap_sentences`, over the reversed
sentence list with the running overlap token count. -/
def overlapWalk (tok : Tokenizer) (limit : Int) : List Sentence → Int → List Sentence
  | [], _ => []
  | s :: rest, acc =>
    let t := tok.count_tokens s.text
    if acc + t > limit then [] else overlapWalk tok limit rest (acc + t) ++ [s]

/-- `_get_overlap_sentences(sentences)`. -/
def get_overlap_sentences (tok : Tokenizer) (overlap_tokens : Int)
    (sentences : List Sentence) : List Sentence :=
  if overlap_tokens ≤ 0 || sentences.isEmpty then []
  else overlapWalk tok overlap_tokens sentences.reverse 0

/-- Python `" ".join(ts)`: the pieces separated by single spaces. -/
def joinTexts : List String → String
  | [] => ""
  | [t] => t
  | t :: rest => t ++ " " ++ joinTexts rest

/-- `" ".join(s.text for s in sentences)`. -/
def joinSentences (sentences : List Sentence) : String :=
  joinTexts (sentences.map (·.text))

/-- `_create_chunk(sentences, section_header, index)`. -/
def create_chunk (tok : Tokenizer) (source : Option String)
    (sentences : List Sentence) (section_header : Option String) (index : Nat) :
    Chunk :=
  let text := joinSentences sentences
  let start := match sentences with | [] => 0 | s :: _ => s.start
  let stop := match sentences.getLast? with | none => 0 | some s => s.endPos
  mkChunk text
    { source := source, position := some ((start : Int), (stop : Int)),
      section_header := section_header, chunk_index := some index }
    [(tok.name, tok.count_tokens text)]

/-- The hard-split chunks appended for one oversized sentence, each with
`chunk_index = len(chunks)` at its own append. -/
def appendHardChunks (tok : Tokenizer) (source : Option String)
    (section_header : Option String) (s : Sentence) (chunks : List Chunk)
    (pieces : List String) : List Chunk :=
  pieces.foldl (fun acc hc =>
    acc ++ [mkChunk hc
      { source := source, position := some ((s.start : Int), (s.endPos : Int)),
        section_header := section_header, chunk_index := some acc.length }
      [(tok.name, tok.count_tokens hc)]]) chunks

/-- Sum of per-sentence token counts (`sum(self._count_tokens(s.text) for
s in current_sentences)`). -/
def sentTokenSum (tok : Tokenizer) (sentences : List Sentence) : Int :=
  (sentences.map fun s => tok.count_tokens s.text).sum

/-- The per-sentence loop of `_group_sentences_into_chunks`, carried over
the emitted chunks, the accumulator and its running token count. -/
def groupLoop (tok : Tokenizer) (max_tokens overlap_tokens : Int)
    (source section_header : Option String) (chunks : List Chunk)
    (current : List Sentence) (curTok : Int) :
    List Sentence → Option (List Chunk)
  | [] =>
    if current.isEmpty then some chunks
    else some (chunks ++ [create_chunk tok source current section_header chunks.length])
  | s :: rest =>
    let t := tok.count_tokens s.text
    if t > max_tokens then
      let chunks1 := if current.isEmpty then chunks
        else chunks ++ [create_chunk tok source current section_header chunks.length]
      match hard_split tok s.text max_tokens with
      | none => none
      | some pieces =>
        groupLoop tok max_tokens overlap_tokens source section_header
          (appendHardChunks tok source section_header s chunks1 pieces) [] 0 rest
    else if curTok + t > max_tokens && !current.isEmpty then
      let chunks1 := chunks ++ [create_chunk tok source current section_header chunks.length]
      let overlap := get_overlap_sentences tok overlap_tokens current
      groupLoop tok max_tokens overlap_tokens source section_header
        chunks1 (overlap ++ [s]) (sentTokenSum tok overlap + t) rest
    else
      groupLoop tok max_tokens overlap_tokens source section_header
        chunks (current ++ [s]) (curTok + t) rest

/-- `_group_sentences_into_chunks(sentences, section_header)`. -/
def group_sentences_into_chunks (tok : Tokenizer) (max_tokens overlap_tokens : Int)
    (source : Option String) (sentences : List Sentence)
    (section_header : Option String) : Option (List Chunk) :=
  if sentences.isEmpty then some []
  else groupLoop tok max_tokens overlap_tokens source section_header [] [] 0 sentences

/-- The sentence list `TextChunker.chunk` feeds the assembler: protect
code blocks, segment, and restore placeholders inside the sentence
texts (only when any replacement was made). -/
def pipelineSentences (preserve : Bool) (cs : List Char) : List Sentence :=
  let pr := protect_code_blocks preserve cs
  let sentences := segmentSentencesL pr.1
  if pr.2.isEmpty then sentences
  else sentences.map fun s => ⟨restore_code_blocks s.text pr.2, s.start, s.endPos⟩

/-- `TextChunker.chunk(text, section_header)` in terms of the
configuration fields it reads.  The final pass rebuilds every chunk with
`total_chunks` set; the rebuild passes no `chunk_id`, so it is derived
again from the unchanged text and position. -/
def chunkCore (tok : Tokenizer) (max_tokens overlap_tokens : Int) (preserve : Bool)
    (source : Option String) (text : String) (section_header : Option String) :
    Option (List Chunk) :=
  if (pyStrip text.data).isEmpty then some []
  else
    let sentences := pipelineSentences preserve text.data
    match group_sentences_into_chunks tok max_tokens overlap_tokens source
        sentences section_header with
    | none => none
    | some chunks =>
      some (chunks.map fun c =>
        mkChunk c.text (c.metadata.withTotalChunks chunks.length) c.token_counts)

/-- The `TextChunker` dataclass.  `preserve_lists` and `min_chunk_tokens`
are stored but, as the claims note, never read during chunking. -/
structure TextChunker where
  max_tokens : Int := 500
  overlap_tokens : Int := 0
  tokenizer : Tokenizer := characterTokenizer
  preserve_code_blocks : Bool := true
  preserve_lists : Bool := true
  min_chunk_tokens : Int := 50
  source : Option String := none

/-- The generated dataclass constructor `TextChunker(...)`: it validates
nothing and always succeeds. -/
def mkTextChunker (max_tokens overlap_tokens : Int) (tokenizer : Tokenizer)
    (preserve_code_blocks preserve_lists : Bool) (min_chunk_tokens : Int)
    (source : Option String) : TextChunker :=
  ⟨max_tokens, overlap_tokens, tokenizer, preserve_code_blocks, preserve_lists,
   min_chunk_tokens, source⟩

/-- `TextChunker.chunk`. -/
def TextChunker.chunk (ck : TextChunker) (text : String)
    (section_header : Option String) : Option (List Chunk) :=
  chunkCore ck.tokenizer ck.max_tokens ck.overlap_tokens ck.preserve_code_blocks
    ck.source text section_header

/-- `ChunkyMonkey` (the parser capability, unused by the claims, is
omitted: the claims only concern its constructor and inner chunker). -/
structure ChunkyMonkey where
  tokenizer : Tokenizer
  max_tokens : Int
  overlap_tokens : Int
  preserve_code_blocks : Bool
  validate : Bool
  source : Option String
  chunker : TextChunker

/-- `ChunkyMonkey.__init__`: stores the configuration unvalidated and
builds the inner `TextChunker` (whose remaining fields keep their
dataclass defaults). -/
def mkChunkyMonkey (tokenizer : Option Tokenizer) (max_tokens overlap_tokens : Int)
    (preserve_code_blocks validate : Bool) (source : Option String) : ChunkyMonkey :=
  let tok := tokenizer.getD characterTokenizer
  ⟨tok, max_tokens, overlap_tokens, preserve_code_blocks, validate, source,
   { max_tokens := max_tokens, overlap_tokens := overlap_tokens, tokenizer := tok,
     preserve_code_blocks := preserve_code_blocks, source := source }⟩

/-! ## Validators (src/monkey/validators/integrity.py) -/

/-- The `DANGLING_PRONOUNS` set, in source order (the duplicate `"her"`
literal collapses in the Python set). -/
def DANGLING_PRONOUNS : List String :=
  ["he", "she", "it", "they", "we",
   "him", "her", "them", "us",
   "his", "hers", "its", "their", "theirs", "our", "ours",
   "this", "that", "these", "those",
   "which", "who", "whom"]

/-- The `REFERENCE_PATTERNS` alternatives, one list per compiled
pattern, in source order. -/
def REFERENCE_PATTERNS : List (List String) :=
  [["as mentioned", "as noted", "as described", "as shown", "as stated"],
   ["see above", "mentioned above", "described above", "noted above"],
   ["the above", "the previous", "the aforementioned", "the following"],
   ["in the previous", "in the last", "in the next"]]

/-- The `details` dict of a `ValidationWarning` from
`flag_dangling_references`. -/
inductive WarningDetails where
  | pronounStart (pronoun : String) (first_sentence : String) (chunk_index : Nat)
  | referencePhrase (phrase : String) (position : Nat) (chunk_index : Nat)
deriving Repr, DecidableEq

/-- `ValidationWarning` (severity is always `"warning"`). -/
structure ValidationWarning where
  chunk_id : String
  message : String
  severity : String
  details : WarningDetails
deriving Repr, DecidableEq

/-- Not a period (the separator of Python `text.split('.')`). -/
def notDot (c : Char) : Bool := c ≠ '.'

/-- Does one `\b(?:alt1|alt2|…)\b` alternative match (case-insensitively)
at position `p`?  Every alternative starts and ends with a word
character, so the boundaries reduce to the neighbours not being word
characters.  Returns the matched original text. -/
def refAltAt (alts : List String) (cs : List Char) (p : Nat) : Option String :=
  if p = 0 || !isWordChar (charAt cs (p - 1)) then
    alts.findSome? fun alt =>
      if lowerList (slice cs p (p + alt.length)) = alt.data
          && (p + alt.length = cs.length || !isWordChar (charAt cs (p + alt.length)))
      then some ⟨slice cs p (p + alt.length)⟩ else none
  else none

/-- Fuel-based leftmost search (`fuel = cs.length - p` suffices). -/
def refSearchF (alts : List String) (cs : List Char) : Nat → Nat → Option (String × Nat)
  | 0, _ => none
  | fuel + 1, p =>
    if p < cs.length then
      match refAltAt alts cs p with
      | some phrase => some (phrase, p)
      | none => refSearchF alts cs fuel (p + 1)
    else none

/-- `pattern.search(text)` for one reference pattern: the leftmost match
and its start position. -/
def refSearch (alts : List String) (cs : List Char) (p : Nat) :
    Option (String × Nat) :=
  refSearchF alts cs (cs.length - p) p

/-- The reference-phrase loop of `flag_dangling_references`: patterns in
order, break at the first pattern with a match. -/
def findReferencePhrase (cs : List Char) : Option (String × Nat) :=
  REFERENCE_PATTERNS.findSome? fun alts => refSearch alts cs 0

/-- The warnings `flag_dangling_references` emits for the chunk at
enumerate-index `i`. -/
def danglingForChunk (i : Nat) (chunk : Chunk) : List ValidationWarning :=
  let text := pyStrip chunk.text.data
  if text.isEmpty then []
  else if i = 0 then []
  else
    let first_sentence := if text.contains '.' then text.takeWhile notDot else text
    let first_word : List Char := (pyWords first_sentence).headD []
    let pron : List ValidationWarning :=
      if DANGLING_PRONOUNS.contains ⟨lowerList first_word⟩ then
        [⟨chunk.chunk_id,
          "Starts with pronoun '" ++ ⟨first_word⟩ ++ "' - possible dangling reference",
          "warning", .pronounStart ⟨first_word⟩ ⟨first_sentence.take 100⟩ i⟩]
      else []
    let ref : List ValidationWarning :=
      match findReferencePhrase (text.take 200) with
      | some pr =>
        [⟨chunk.chunk_id,
          "Contains reference phrase '" ++ pr.1 ++ "' - may need context",
          "warning", .referencePhrase pr.1 pr.2 i⟩]
      | none => []
    pron ++ ref

/-- `flag_dangling_references(chunks)`. -/
def flag_dangling_references (chunks : List Chunk) : List ValidationWarning :=
  (chunks.enum.map fun ic => danglingForChunk ic.1 ic.2).flatten

/-! ## General lemmas -/

/-- Stripping an all-whitespace string gives the empty string. -/
theorem pyStrip_eq_nil_of_all_space {cs : List Char}
    (h : ∀ c ∈ cs, pyIsSpace c) : pyStrip cs = [] := by
  unfold pyStrip
  rw [List.dropWhile_eq_nil_iff.2 h]
  simp

/-! ## Claim C9: the abbreviation scenario -/

/-- C9.  On `"Mr. Smith went home. He was tired."` the segmenter returns
exactly the two sentences `"Mr. Smith went home."` and `"He was
tired."`: the boundary pattern fires at the periods at offsets 2 and 19,
`_is_false_ending` classifies offset 2 (after the abbreviation `"Mr"`)
as false and offset 19 (after `"home"`) as real. -/
theorem c9_segmentation_abbreviation :
    segment_sentences "Mr. Smith went home. He was tired."
        = [⟨"Mr. Smith went home.", 0, 20⟩, ⟨"He was tired.", 21, 34⟩]
      ∧ scanFrom matchBoundaryAt "Mr. Smith went home. He was tired.".data 0
        = [(2, 4), (19, 21)]
      ∧ is_false_ending "Mr. Smith went home. He was tired.".data 2 = true
      ∧ is_false_ending "Mr. Smith went home. He was tired.".data 19 = false := by
  refine ⟨by decide, by decide, by decide, by decide⟩

/-! ## Claim C7: empty and whitespace-only input -/

/-- C7.  An input that is empty or all whitespace produces zero chunks
(`TextChunker.chunk` returns successfully with the empty list, it does
not error) and `segment_sentences` returns the empty sequence. -/
theorem c7_whitespace_input_yields_no_chunks
    (ck : TextChunker) (text : String) (section_header : Option String)
    (h : ∀ c ∈ text.data, pyIsSpace c) :
    ck.chunk text section_header = some [] ∧ segment_sentences text = [] := by
  have hnil : pyStrip text.data = [] := pyStrip_eq_nil_of_all_space h
  constructor
  · show chunkCore ck.tokenizer ck.max_tokens ck.overlap_tokens ck.preserve_code_blocks
      ck.source text section_header = some []
    unfold chunkCore
    rw [hnil]
    simp
  · unfold segment_sentences segmentSentencesL
    rw [hnil]
    simp

/-- C7's witness: a concrete whitespace-only input. -/
theorem c7_whitespace_witness :
    TextChunker.chunk {} " \t\n " none = some [] ∧ segment_sentences " \t\n " = [] :=
  c7_whitespace_input_yields_no_chunks {} " \t\n " none (by decide)

/-! ## Claim C4: determinism and content-derived identity -/

/-- C4.  Chunking is a pure function of the configuration and the text:
the same call yields the same chunk list (in the embedding the call *is*
a function application, there is no process, time or call-order input to
depend on), and every returned chunk's `chunk_id` is
`_generate_chunk_id` of exactly its text and its metadata's position, so
ids and metadata are reproducible as well. -/
theorem c4_chunking_is_deterministic (ck : TextChunker) (text : String)
    (section_header : Option String) :
    ck.chunk text section_header = ck.chunk text section_header
      ∧ ∀ l, ck.chunk text section_header = some l →
        ∀ c ∈ l, c.chunk_id = generate_chunk_id c.text c.metadata.position := by
  refine ⟨rfl, fun l hl c hc => ?_⟩
  unfold TextChunker.chunk chunkCore at hl
  by_cases hempty : (pyStrip text.data).isEmpty
  · rw [if_pos hempty] at hl
    cases hl
    cases hc
  · rw [if_neg hempty] at hl
    rcases hgroup : group_sentences_into_chunks ck.tokenizer ck.max_tokens
        ck.overlap_tokens ck.source (pipelineSentences ck.preserve_code_blocks text.data)
        section_header with _ | chunks
    · simp only [hgroup] at hl
      cases hl
    · simp only [hgroup] at hl
      cases hl
      rcases List.mem_map.1 hc with ⟨c0, _, rfl⟩
      rfl

/-! ## Claim C10: `min_chunk_tokens` and `preserve_lists` are dead
configuration -/

/-- C10.  Two `TextChunker`s that differ only in `min_chunk_tokens` and
`preserve_lists` chunk every text identically: the two fields are stored
by the constructor but never read on the chunking path. -/
theorem c10_dead_config_fields (max_tokens overlap_tokens : Int) (tok : Tokenizer)
    (preserve_code_blocks : Bool) (preserve_lists₁ preserve_lists₂ : Bool)
    (min_chunk_tokens₁ min_chunk_tokens₂ : Int) (source : Option String)
    (text : String) (section_header : Option String) :
    (mkTextChunker max_tokens overlap_tokens tok preserve_code_blocks
        preserve_lists₁ min_chunk_tokens₁ source).chunk text section_header
      = (mkTextChunker max_tokens overlap_tokens tok preserve_code_blocks
        preserve_lists₂ min_chunk_tokens₂ source).chunk text section_header := rfl

/-! ## Claim C3: no fail-fast validation of the token budget -/

/-- C3 counterexample.  Construction with a non-positive budget does not
fail: `TextChunker(max_tokens=0)` and `ChunkyMonkey(max_tokens=-1)`
succeed and store the invalid budget, and the misbehaviour only surfaces
later during assembly — chunking `"Hello."` with `max_tokens=-1`
silently returns zero chunks (the hard-split `range` is empty), and with
`max_tokens=0` the chunk call is the first thing to fail (the modelled
`range(0, n, 0)` `ValueError`). -/
theorem c3_no_failfast_counterexample :
    (mkTextChunker 0 0 characterTokenizer true true 50 none).max_tokens = 0
      ∧ (mkChunkyMonkey none (-1) 0 true true none).chunker.max_tokens = -1
      ∧ (mkTextChunker (-1) 0 characterTokenizer true true 50 none).chunk
          "Hello." none = some []
      ∧ (mkTextChunker 0 0 characterTokenizer true true 50 none).chunk
          "Hello." none = none :=
  ⟨rfl, rfl, by decide, by decide⟩

/-- C3 amended.  Construction never validates the budget: for every
`max_tokens` (non-positive included) both constructors succeed and store
the given value unchanged, in the chunker and in `ChunkyMonkey`'s inner
`TextChunker`; invalid budgets surface only later, during assembly. -/
theorem c3_construction_never_validates (max_tokens overlap_tokens : Int)
    (tok : Tokenizer) (preserve_code_blocks preserve_lists validate : Bool)
    (min_chunk_tokens : Int) (source : Option String) :
    (mkTextChunker max_tokens overlap_tokens tok preserve_code_blocks
        preserve_lists min_chunk_tokens source).max_tokens = max_tokens
      ∧ (mkTextChunker max_tokens overlap_tokens tok preserve_code_blocks
          preserve_lists min_chunk_tokens source).overlap_tokens = overlap_tokens
      ∧ (mkChunkyMonkey (some tok) max_tokens overlap_tokens preserve_code_blocks
          validate source).max_tokens = max_tokens
      ∧ (mkChunkyMonkey (some tok) max_tokens overlap_tokens preserve_code_blocks
          validate source).chunker.max_tokens = max_tokens :=
  ⟨rfl, rfl, rfl, rfl⟩

/-! ## Claim C6: the overlap window -/

/-- Modelled from the claim's words: walk the emitted sentence list from
the end backward, include each sentence as long as adding its token
count does not push the accumulated overlap count over the limit, and
stop at the first that would; the collected sentences are then returned
in original order. -/
def overlapSpecTake (tok : Tokenizer) (limit : Int) : List Sentence → Int → List Sentence
  | [], _ => []
  | s :: rest, acc =>
    let t := tok.count_tokens s.text
    if acc + t > limit then [] else s :: overlapSpecTake tok limit rest (acc + t)

/-- Modelled from the claim's words: the overlap window as the claim
describes it (empty for a non-positive budget or an empty list). -/
def overlapSpec (tok : Tokenizer) (overlap_tokens : Int) (sentences : List Sentence) :
    List Sentence :=
  if overlap_tokens ≤ 0 ∨ sentences = [] then []
  else (overlapSpecTake tok overlap_tokens sentences.reverse 0).reverse

/-- The code's backward walk agrees with the claim's collected-then-
reversed description. -/
theorem overlapWalk_eq_spec (tok : Tokenizer) (limit : Int) :
    ∀ (l : List Sentence) (acc : Int),
      overlapWalk tok limit l acc = (overlapSpecTake tok limit l acc).reverse := by
  intro l
  induction l with
  | nil => intro acc; rfl
  | cons s rest ih =>
    intro acc
    unfold overlapWalk overlapSpecTake
    by_cases h : acc + tok.count_tokens s.text > limit
    · simp [h]
    · simp only [h, if_neg, if_false]
      rw [ih]
      simp

/-- `overlapSpecTake` collects a prefix of the walked (reversed) list. -/
theorem overlapSpecTake_prefix (tok : Tokenizer) (limit : Int) :
    ∀ (l : List Sentence) (acc : Int),
      (overlapSpecTake tok limit l acc) <+: l := by
  intro l
  induction l with
  | nil => intro acc; simp [overlapSpecTake]
  | cons s rest ih =>
    intro acc
    unfold overlapSpecTake
    by_cases h : acc + tok.count_tokens s.text > limit
    · simp [h]
    · simp only [h, if_neg, if_false]
      exact List.cons_prefix_cons.2 ⟨rfl, ih (acc + tok.count_tokens s.text)⟩

/-- C6.  `_get_overlap_sentences` returns exactly what the claim
describes: the backward walk collected while the accumulated count stays
within `overlap_tokens`, returned in original order; the result is a
suffix of the input list; and it is empty whenever `overlap_tokens ≤ 0`
or the list is empty. -/
theorem c6_overlap_window (tok : Tokenizer) (overlap_tokens : Int)
    (sentences : List Sentence) :
    get_overlap_sentences tok overlap_tokens sentences
        = overlapSpec tok overlap_tokens sentences
      ∧ (get_overlap_sentences tok overlap_tokens sentences) <:+ sentences
      ∧ ((overlap_tokens ≤ 0 ∨ sentences = []) →
          get_overlap_sentences tok overlap_tokens sentences = []) := by
  have heq : get_overlap_sentences tok overlap_tokens sentences
      = overlapSpec tok overlap_tokens sentences := by
    unfold get_overlap_sentences overlapSpec
    by_cases h : overlap_tokens ≤ 0 ∨ sentences = []
    · rw [if_pos h]
      have hb : (decide (overlap_tokens ≤ 0) || sentences.isEmpty) = true := by
        rcases h with h | h
        · simp [h]
        · simp [h]
      rw [hb]
      simp
    · rw [if_neg h]
      push_neg at h
      have hb : (decide (overlap_tokens ≤ 0) || sentences.isEmpty) = false := by
        simp [h.1, h.2]
      rw [hb]
      simp only [Bool.false_eq_true, if_false]
      exact overlapWalk_eq_spec tok overlap_tokens sentences.reverse 0
  refine ⟨heq, ?_, ?_⟩
  · rw [heq]
    unfold overlapSpec
    by_cases h : overlap_tokens ≤ 0 ∨ sentences = []
    · rw [if_pos h]
      exact List.nil_suffix
    · rw [if_neg h]
      have hp := overlapSpecTake_prefix tok overlap_tokens sentences.reverse 0
      have hs : (overlapSpecTake tok overlap_tokens sentences.reverse 0).reverse
          <:+ sentences.reverse.reverse := List.reverse_suffix.2 hp
      rwa [List.reverse_reverse] at hs
  · intro h
    rw [heq]
    unfold overlapSpec
    rw [if_pos h]

/-! ## Claim C8: dangling-pronoun warnings -/

/-- `takeWhile` over an append: the second part contributes only when the
first is consumed whole. -/
theorem takeWhile_append_cases (p : Char → Bool) (l1 l2 : List Char) :
    (l1 ++ l2).takeWhile p
      = l1.takeWhile p ++ (if l1.takeWhile p = l1 then l2.takeWhile p else []) := by
  induction l1 with
  | nil => simp
  | cons c rest ih =>
    by_cases hc : p c
    · simp only [List.cons_append, List.takeWhile_cons, hc, if_true, ih]
      by_cases h2 : rest.takeWhile p = rest
      · simp [h2]
      · have h3 : ¬(c :: rest.takeWhile p = c :: rest) := by
          intro h
          injection h with _ h4
          exact h2 h4
        simp [h2, h3]
    · have h3 : ¬((List.takeWhile p (c :: rest)) = c :: rest) := by
        simp [List.takeWhile_cons, hc]
      simp [List.takeWhile_cons, hc, h3]

/-- `dropWhile` skips a fully satisfying prefix. -/
theorem dropWhile_append_all {p : Char → Bool} {l1 : List Char} (l2 : List Char)
    (h : ∀ c ∈ l1, p c = true) : (l1 ++ l2).dropWhile p = l2.dropWhile p := by
  induction l1 with
  | nil => simp
  | cons c rest ih =>
    simp only [List.cons_append, List.dropWhile_cons, h c (by simp)]
    exact ih fun x hx => h x (by simp [hx])

/-- `takeWhile` of a list on which the predicate always fails. -/
theorem takeWhile_eq_nil_of_all_not {p : Char → Bool} {l : List Char}
    (h : ∀ c ∈ l, p c = false) : l.takeWhile p = [] := by
  cases l with
  | nil => rfl
  | cons c rest => simp [List.takeWhile_cons, h c (by simp)]

/-- A whitespace character is not a period. -/
theorem pyIsSpace_ne_dot {c : Char} (h : pyIsSpace c = true) : notDot c = true := by
  simp only [pyIsSpace, Bool.or_eq_true, decide_eq_true_eq] at h
  rcases h with ((((h | h) | h) | h) | h) | h <;> subst h <;> decide

/-- The left-stripped text is the stripped core followed by trailing
whitespace. -/
theorem pyStrip_decomp (cs : List Char) :
    ∃ tws, cs.dropWhile pyIsSpace = pyStrip cs ++ tws
      ∧ ∀ c ∈ tws, pyIsSpace c = true := by
  refine ⟨((cs.dropWhile pyIsSpace).reverse.takeWhile pyIsSpace).reverse, ?_, ?_⟩
  · conv_lhs => rw [← List.reverse_reverse (cs.dropWhile pyIsSpace),
      ← List.takeWhile_append_dropWhile pyIsSpace (cs.dropWhile pyIsSpace).reverse]
    rw [List.reverse_append]
    rfl
  · intro c hc
    rw [List.mem_reverse] at hc
    exact List.mem_takeWhile_imp hc

/-- An empty strip means an all-whitespace string. -/
theorem all_space_of_pyStrip_eq_nil {cs : List Char} (h : pyStrip cs = []) :
    ∀ c ∈ cs, pyIsSpace c = true := by
  obtain ⟨tws, hdec, htws⟩ := pyStrip_decomp cs
  rw [h, List.nil_append] at hdec
  have hdrop : ∀ c ∈ cs.dropWhile pyIsSpace, pyIsSpace c = true := by
    rw [hdec]; exact htws
  have : cs.dropWhile pyIsSpace = [] := by
    cases hd : cs.dropWhile pyIsSpace with
    | nil => rfl
    | cons c rest =>
      have h1 := List.head_dropWhile_not pyIsSpace cs (by rw [hd]; simp)
      have h2 := hdrop ((cs.dropWhile pyIsSpace).head (by rw [hd]; simp))
        (List.head_mem _)
      rw [h2] at h1
      cases h1
  exact List.dropWhile_eq_nil_iff.1 this

/-- A non-empty strip starts with a non-whitespace character. -/
theorem pyStrip_head_not_space {cs : List Char} {c : Char} {rest : List Char}
    (h : pyStrip cs = c :: rest) : pyIsSpace c = false := by
  obtain ⟨tws, hdec, _⟩ := pyStrip_decomp cs
  rw [h] at hdec
  have hne : cs.dropWhile pyIsSpace ≠ [] := by rw [hdec]; simp
  have h1 := List.head_dropWhile_not pyIsSpace cs hne
  have h2 : (cs.dropWhile pyIsSpace).head hne = c := by
    simp [hdec]
  rwa [h2] at h1

/-- The head of `pyWords` is the first whitespace-delimited word. -/
theorem pyWords_headD (l : List Char) :
    (pyWords l).headD []
      = (l.dropWhile pyIsSpace).takeWhile (fun c => !pyIsSpace c) := by
  unfold pyWords
  cases l with
  | nil => rfl
  | cons x xs =>
    show (pyWordsF (xs.length + 1) (x :: xs)).headD [] = _
    unfold pyWordsF
    cases hd : (x :: xs).dropWhile pyIsSpace with
    | nil => simp
    | cons c rest => simp

/-- The first word of the text up to the first period is unchanged by
stripping the text first. -/
theorem firstWord_strip_eq (cs : List Char) :
    (((pyStrip cs).takeWhile notDot).dropWhile pyIsSpace).takeWhile
        (fun c => !pyIsSpace c)
      = ((cs.takeWhile notDot).dropWhile pyIsSpace).takeWhile
        (fun c => !pyIsSpace c) := by
  obtain ⟨tws, hdec, htws⟩ := pyStrip_decomp cs
  have hcs : cs = cs.takeWhile pyIsSpace ++ cs.dropWhile pyIsSpace :=
    (List.takeWhile_append_dropWhile pyIsSpace cs).symm
  -- Reduce the right side to the left-stripped text.
  have hstep1 : cs.takeWhile notDot
      = cs.takeWhile pyIsSpace ++ (cs.dropWhile pyIsSpace).takeWhile notDot := by
    conv_lhs => rw [hcs]
    rw [takeWhile_append_cases]
    have hall : (cs.takeWhile pyIsSpace).takeWhile notDot = cs.takeWhile pyIsSpace := by
      refine List.takeWhile_eq_self_iff.2 fun x hx => ?_
      exact pyIsSpace_ne_dot (List.mem_takeWhile_imp hx)
    rw [hall, if_pos rfl]
  have hstep2 : (cs.takeWhile notDot).dropWhile pyIsSpace
      = ((cs.dropWhile pyIsSpace).takeWhile notDot).dropWhile pyIsSpace := by
    rw [hstep1]
    exact dropWhile_append_all _ fun c hc => List.mem_takeWhile_imp hc
  rw [hstep2, hdec, takeWhile_append_cases]
  have hZ : ∀ c ∈ tws.takeWhile notDot, pyIsSpace c = true :=
    fun c hc => htws c ((List.takeWhile_prefix _).subset hc)
  by_cases hY : (pyStrip cs).takeWhile notDot = pyStrip cs
  · rw [if_pos hY, hY]
    cases hcore : pyStrip cs with
    | nil =>
      have hdropZ : (tws.takeWhile notDot).dropWhile pyIsSpace = [] :=
        List.dropWhile_eq_nil_iff.2 hZ
      simp only [List.nil_append, hdropZ]
      rfl
    | cons c0 crest =>
      have hc0 : pyIsSpace c0 = false := pyStrip_head_not_space hcore
      have hZnil : (tws.takeWhile notDot).takeWhile (fun c => !pyIsSpace c) = [] := by
        refine takeWhile_eq_nil_of_all_not fun c hc => ?_
        simp [hZ c hc]
      rw [List.cons_append, List.dropWhile_cons, List.dropWhile_cons]
      simp only [hc0, Bool.false_eq_true, if_false]
      rw [show c0 :: (crest ++ tws.takeWhile notDot)
            = (c0 :: crest) ++ tws.takeWhile notDot from rfl,
        takeWhile_append_cases]
      simp [hZnil]
  · rw [if_neg hY]
    simp

/-- The index a pronoun warning names; `none` for phrase warnings. -/
def pronounWarnIdx (w : ValidationWarning) : Option Nat :=
  match w.details with
  | .pronounStart _ _ i => some i
  | .referencePhrase _ _ _ => none

/-- Modelled from the claim's words: the first word (whitespace-delimited
token) of a chunk text's first sentence, the text up to the first
sentence terminator (the period, the terminator this validator splits
on). -/
def firstWordSpec (cs : List Char) : List Char :=
  ((cs.takeWhile notDot).dropWhile pyIsSpace).takeWhile (fun c => !pyIsSpace c)

/-- Modelled from the claim's words: a chunk draws a pronoun warning
exactly when it is not the first chunk and the first word of its first
sentence is in the fixed pronoun set, case-insensitively. -/
def pronounFlagSpec (i : Nat) (c : Chunk) : Bool :=
  decide (i ≠ 0) && DANGLING_PRONOUNS.contains ⟨lowerList (firstWordSpec c.text.data)⟩

/-- The empty word is not a pronoun. -/
theorem nil_not_pronoun : DANGLING_PRONOUNS.contains (⟨lowerList []⟩ : String) = false := by
  decide

/-- Per-chunk: the pronoun warnings of `danglingForChunk` are exactly
what `pronounFlagSpec` predicts. -/
theorem danglingForChunk_pronoun (i : Nat) (c : Chunk) :
    (danglingForChunk i c).filterMap pronounWarnIdx
      = if pronounFlagSpec i c then [i] else [] := by
  unfold danglingForChunk
  cases hstrip : pyStrip c.text.data with
  | nil =>
    have hall := all_space_of_pyStrip_eq_nil hstrip
    have hfw : firstWordSpec c.text.data = [] := by
      unfold firstWordSpec
      have h1 : c.text.data.takeWhile notDot = c.text.data :=
        List.takeWhile_eq_self_iff.2 fun x hx => pyIsSpace_ne_dot (hall x hx)
      rw [h1, List.dropWhile_eq_nil_iff.2 hall]
      rfl
    have hflag : pronounFlagSpec i c = false := by
      unfold pronounFlagSpec
      rw [hfw, nil_not_pronoun, Bool.and_false]
    simp only [hstrip, hflag, List.isEmpty_nil, if_true, Bool.false_eq_true, if_false]
    rfl
  | cons c0 crest =>
    by_cases hi : i = 0
    · subst hi
      have hflag : pronounFlagSpec 0 c = false := by
        unfold pronounFlagSpec
        simp
      simp only [hstrip, hflag, List.isEmpty_cons, if_false, Bool.false_eq_true]
      simp
    · -- The first word the code computes equals the claim's first word.
      have hfs : (if (c0 :: crest).contains '.' then (c0 :: crest).takeWhile notDot
          else (c0 :: crest)) = (c0 :: crest).takeWhile notDot := by
        by_cases hcont : (c0 :: crest).contains '.'
        · rw [if_pos hcont]
        · rw [if_neg hcont]
          refine (List.takeWhile_eq_self_iff.2 fun x hx => ?_).symm
          unfold notDot
          simp only [decide_eq_true_eq]
          intro hxdot
          subst hxdot
          exact hcont (List.elem_iff.2 hx)
      have hfw : (pyWords ((c0 :: crest).takeWhile notDot)).headD []
          = firstWordSpec c.text.data := by
        rw [pyWords_headD]
        unfold firstWordSpec
        have := firstWord_strip_eq c.text.data
        rw [hstrip] at this
        exact this
      simp only [hstrip, List.isEmpty_cons, if_false, hi, Bool.false_eq_true, hfs, hfw]
      cases hcontains :
          DANGLING_PRONOUNS.contains (⟨lowerList (firstWordSpec c.text.data)⟩ : String) with
      | true =>
        have hflag : pronounFlagSpec i c = true := by
          unfold pronounFlagSpec
          rw [hcontains, Bool.and_true, decide_eq_true_eq]
          exact hi
        rw [hflag]
        cases href : findReferencePhrase ((c0 :: crest).take 200) with
        | none => simp [pronounWarnIdx, List.filterMap]
        | some pr => simp [pronounWarnIdx, List.filterMap]
      | false =>
        have hflag : pronounFlagSpec i c = false := by
          unfold pronounFlagSpec
          rw [hcontains, Bool.and_false]
        rw [hflag]
        cases href : findReferencePhrase ((c0 :: crest).take 200) with
        | none => simp [pronounWarnIdx, List.filterMap]
        | some pr => simp [pronounWarnIdx, List.filterMap]

/-- The flattened warning list, restricted to pronoun warnings, lists
exactly the flagged enumerate-indices, in order. -/
theorem flatten_pronoun_eq (pairs : List (Nat × Chunk)) :
    ((pairs.map fun ic => danglingForChunk ic.1 ic.2).flatten).filterMap pronounWarnIdx
      = (pairs.filter fun ic => pronounFlagSpec ic.1 ic.2).map Prod.fst := by
  induction pairs with
  | nil => rfl
  | cons ic rest ih =>
    simp only [List.map_cons, List.flatten_cons, List.filterMap_append, ih,
      List.filter_cons]
    rw [danglingForChunk_pronoun]
    by_cases h : pronounFlagSpec ic.1 ic.2
    · rw [if_pos h, if_pos h]
      rfl
    · rw [if_neg h, if_neg (by simpa using h)]
      rfl

/-- C8.  `flag_dangling_references` emits a pronoun warning exactly for
the chunks `pronounFlagSpec` flags (not first, first word of the first
sentence in the pronoun set, case-insensitively); on the two-chunk
scenario it emits exactly one warning naming the second chunk (index 1)
and the pronoun `"It"`, and none when only the first chunk is given. -/
theorem c8_dangling_pronoun_flags :
    (∀ chunks : List Chunk,
        (flag_dangling_references chunks).filterMap pronounWarnIdx
          = (chunks.enum.filter fun ic => pronounFlagSpec ic.1 ic.2).map Prod.fst)
      ∧ (flag_dangling_references
            [mkChunk "The system works." {} [], mkChunk "It works perfectly." {} []]).map
          ValidationWarning.details
          = [WarningDetails.pronounStart "It" "It works perfectly" 1]
      ∧ flag_dangling_references [mkChunk "The system works." {} []] = [] := by
  refine ⟨fun chunks => ?_, by decide, by decide⟩
  unfold flag_dangling_references
  exact flatten_pronoun_eq chunks.enum

/-! ## Claim C5: chunk-id identity sensitivity -/

/-- Value of a decimal digit character. -/
def digitVal (c : Char) : Nat := c.toNat - 48

/-- Value of a digit list, least significant first. -/
def digitsVal : List Char → Nat
  | [] => 0
  | c :: rest => digitVal c + 10 * digitsVal rest

/-- `natDigitsRevF` round-trips through `digitsVal` when given enough
fuel. -/
theorem digitsVal_natDigitsRevF : ∀ (fuel n : Nat), n < fuel →
    digitsVal (natDigitsRevF fuel n) = n := by
  intro fuel
  induction fuel with
  | zero => intro n h; omega
  | succ fuel ih =>
    intro n h
    unfold natDigitsRevF
    by_cases h10 : n < 10
    · rw [if_pos h10]
      have : digitVal (digitChar n) = n := by
        unfold digitVal digitChar
        interval_cases n <;> decide
      simp [digitsVal, this]
    · rw [if_neg h10]
      have hdiv : n / 10 < fuel := by
        have := Nat.div_lt_self (by omega : 0 < n) (by norm_num : 1 < 10)
        omega
      have hmod : digitVal (digitChar (n % 10)) = n % 10 := by
        have hm : n % 10 < 10 := Nat.mod_lt _ (by norm_num)
        unfold digitVal digitChar
        interval_cases hh : n % 10 <;> simp_all <;> decide
      simp only [digitsVal, hmod, ih (n / 10) hdiv]
      omega

/-- `str(n)` is injective. -/
theorem pyNatRepr_inj {m n : Nat} (h : pyNatRepr m = pyNatRepr n) : m = n := by
  have hdata : (natDigitsRev m).reverse = (natDigitsRev n).reverse :=
    congrArg String.data h
  have hlist : natDigitsRev m = natDigitsRev n := by
    have := congrArg List.reverse hdata
    simpa using this
  have h1 := digitsVal_natDigitsRevF (m + 1) m (by omega)
  have h2 := digitsVal_natDigitsRevF (n + 1) n (by omega)
  unfold natDigitsRev at hlist
  rw [hlist, h2] at h1
  omega

/-- Every character `str(n)` produces is a decimal digit character. -/
theorem natDigitsRevF_chars : ∀ (fuel n : Nat), ∀ c ∈ natDigitsRevF fuel n,
    ∃ k, k < 10 ∧ c = digitChar k := by
  intro fuel
  induction fuel with
  | zero => intro n c hc; cases hc
  | succ fuel ih =>
    intro n c hc
    unfold natDigitsRevF at hc
    by_cases h10 : n < 10
    · rw [if_pos h10, List.mem_singleton] at hc
      exact ⟨n, h10, hc⟩
    · rw [if_neg h10] at hc
      rcases List.mem_cons.1 hc with hc | hc
      · exact ⟨n % 10, Nat.mod_lt _ (by norm_num), hc⟩
      · exact ih _ c hc

/-- Digit characters are not `'-'`, `','` or `' '`. -/
theorem digitChar_not_special {k : Nat} (hk : k < 10) :
    digitChar k ≠ '-' ∧ digitChar k ≠ ',' ∧ digitChar k ≠ ' ' := by
  interval_cases k <;> exact ⟨by decide, by decide, by decide⟩

/-- `str(i)` is injective over the ints. -/
theorem pyIntRepr_inj {i j : Int} (h : pyIntRepr i = pyIntRepr j) : i = j := by
  have hchars : ∀ (n : Nat), ∀ c ∈ (pyNatRepr n).data, c ≠ '-' := by
    intro n c hc
    have hc2 : c ∈ natDigitsRev n := by
      have := List.mem_reverse.1 hc
      exact this
    obtain ⟨k, hk, rfl⟩ := natDigitsRevF_chars _ _ c hc2
    exact (digitChar_not_special hk).1
  unfold pyIntRepr at h
  by_cases hi : i < 0 <;> by_cases hj : j < 0
  · rw [if_pos hi, if_pos hj] at h
    have hdata := congrArg String.data h
    rw [String.data_append, String.data_append] at hdata
    have := List.append_cancel_left hdata
    have := pyNatRepr_inj (String.ext this)
    omega
  · rw [if_pos hi, if_neg hj] at h
    have hdata := congrArg String.data h
    rw [String.data_append] at hdata
    have hmem : '-' ∈ (pyNatRepr j.natAbs).data := by
      rw [← hdata]
      simp [show ("-" : String).data = ['-'] from rfl]
    exact absurd rfl (hchars _ '-' hmem)
  · rw [if_neg hi, if_pos hj] at h
    have hdata := congrArg String.data h
    rw [String.data_append] at hdata
    have hmem : '-' ∈ (pyNatRepr i.natAbs).data := by
      rw [hdata]
      simp [show ("-" : String).data = ['-'] from rfl]
    exact absurd rfl (hchars _ '-' hmem)
  · rw [if_neg hi, if_neg hj] at h
    have := pyNatRepr_inj h
    omega

/-- Splitting at a comma separator is unambiguous when neither prefix
contains a comma. -/
theorem append_comma_inj : ∀ (s1 s2 t1 t2 : List Char),
    (∀ c ∈ s1, c ≠ ',') → (∀ c ∈ s2, c ≠ ',') →
    s1 ++ ',' :: t1 = s2 ++ ',' :: t2 → s1 = s2 ∧ t1 = t2 := by
  intro s1
  induction s1 with
  | nil =>
    intro s2 t1 t2 _ h2 h
    cases s2 with
    | nil => simpa using h
    | cons c s2 =>
      simp only [List.nil_append, List.cons_append, List.cons.injEq] at h
      exact absurd h.1.symm (h2 c (by simp))
  | cons c s1 ih =>
    intro s2 t1 t2 h1 h2 h
    cases s2 with
    | nil =>
      simp only [List.cons_append, List.nil_append, List.cons.injEq] at h
      exact absurd h.1 (h1 c (by simp))
    | cons d s2 =>
      simp only [List.cons_append, List.cons.injEq] at h
      obtain ⟨rfl, h⟩ := h
      obtain ⟨hs, ht⟩ := ih s2 t1 t2 (fun x hx => h1 x (by simp [hx]))
        (fun x hx => h2 x (by simp [hx])) h
      exact ⟨by rw [hs], ht⟩

/-- `str(i)` never contains a comma. -/
theorem pyIntRepr_no_comma (i : Int) : ∀ c ∈ (pyIntRepr i).data, c ≠ ',' := by
  intro c hc
  unfold pyIntRepr at hc
  have hdigit : ∀ (n : Nat), ∀ x ∈ (pyNatRepr n).data, x ≠ ',' := by
    intro n x hx
    obtain ⟨k, hk, rfl⟩ := natDigitsRevF_chars _ _ x (List.mem_reverse.1 hx)
    exact (digitChar_not_special hk).2.1
  by_cases hi : i < 0
  · rw [if_pos hi] at hc
    rw [String.data_append] at hc
    rcases List.mem_append.1 hc with hc | hc
    · simp only [show ("-" : String).data = ['-'] from rfl, List.mem_singleton] at hc
      subst hc
      decide
    · exact hdigit _ c hc
  · rw [if_neg hi] at hc
    exact hdigit _ c hc

/-- `str(position)` is injective over `tuple[int,int] | None`. -/
theorem posReprStr_inj {p q : Option (Int × Int)} (h : posReprStr p = posReprStr q) :
    p = q := by
  match p, q with
  | none, none => rfl
  | none, some cd =>
    have := congrArg String.data h
    simp [posReprStr, String.data_append,
      show ("None" : String).data = ['N', 'o', 'n', 'e'] from rfl,
      show ("(" : String).data = ['('] from rfl] at this
  | some ab, none =>
    have := congrArg String.data h
    simp [posReprStr, String.data_append,
      show ("None" : String).data = ['N', 'o', 'n', 'e'] from rfl,
      show ("(" : String).data = ['('] from rfl] at this
  | some ab, some cd =>
    unfold posReprStr at h
    have hdata := congrArg String.data h
    simp only [String.data_append, show ("(" : String).data = ['('] from rfl,
      show (", " : String).data = [',', ' '] from rfl,
      show (")" : String).data = [')'] from rfl, List.append_assoc,
      List.cons_append, List.nil_append] at hdata
    rcases hdata with hdata
    have hdata2 : (pyIntRepr ab.1).data ++ ',' :: (' ' :: ((pyIntRepr ab.2).data ++ [')']))
        = (pyIntRepr cd.1).data ++ ',' :: (' ' :: ((pyIntRepr cd.2).data ++ [')'])) := by
      injection hdata
    obtain ⟨h1, h2⟩ := append_comma_inj _ _ _ _
      (pyIntRepr_no_comma ab.1) (pyIntRepr_no_comma cd.1) hdata2
    have h2' : (pyIntRepr ab.2).data ++ [')'] = (pyIntRepr cd.2).data ++ [')'] := by
      injection h2
    have h2'' := List.append_cancel_right h2'
    have ha := pyIntRepr_inj (String.ext h1)
    have hb := pyIntRepr_inj (String.ext h2'')
    have : ab = cd := Prod.ext ha hb
    rw [this]

/-- Value of a lowercase hex digit character. -/
def hexVal (c : Char) : Nat :=
  if c.toNat ≤ 57 then c.toNat - 48 else c.toNat - 87

/-- Base-16 value of a hex string, most significant first. -/
def encodeHexNat (l : List Char) : Nat :=
  l.foldl (fun acc c => 16 * acc + hexVal c) 0

/-- `hexVal` is below 16 on hex digits. -/
theorem hexVal_lt : ∀ c ∈ hexDigits, hexVal c < 16 := by decide

/-- `hexVal` separates the sixteen hex digit characters. -/
theorem hexVal_inj_on_hex : ∀ c1 ∈ hexDigits, ∀ c2 ∈ hexDigits,
    hexVal c1 = hexVal c2 → c1 = c2 := by
  decide

/-- The folded hex value is bounded by `16 ^ length`. -/
theorem encodeHexNat_aux_lt : ∀ (l : List Char) (acc : Nat),
    (∀ c ∈ l, c ∈ hexDigits) →
    l.foldl (fun acc c => 16 * acc + hexVal c) acc < (acc + 1) * 16 ^ l.length := by
  intro l
  induction l with
  | nil => intro acc _; simpa using Nat.lt_succ_self acc
  | cons c rest ih =>
    intro acc hmem
    simp only [List.foldl_cons, List.length_cons]
    calc List.foldl (fun acc c => 16 * acc + hexVal c) (16 * acc + hexVal c) rest
        < (16 * acc + hexVal c + 1) * 16 ^ rest.length :=
          ih _ fun x hx => hmem x (by simp [hx])
      _ ≤ (16 * (acc + 1)) * 16 ^ rest.length := by
          have := hexVal_lt c (hmem c (by simp))
          have h2 : 16 * acc + hexVal c + 1 ≤ 16 * (acc + 1) := by omega
          exact Nat.mul_le_mul_right (16 ^ rest.length) h2
      _ = (acc + 1) * 16 ^ (rest.length + 1) := by ring

/-- The hex value of a 16-character hex string is below `16 ^ 16`. -/
theorem encodeHexNat_lt {l : List Char} (h : l.length = 16)
    (hmem : ∀ c ∈ l, c ∈ hexDigits) : encodeHexNat l < 16 ^ 16 := by
  have := encodeHexNat_aux_lt l 0 hmem
  rw [h] at this
  simpa using this

/-- The fold is injective on hex strings of equal length. -/
theorem encodeHexNat_aux_inj : ∀ (l1 l2 : List Char) (acc1 acc2 : Nat),
    l1.length = l2.length →
    (∀ c ∈ l1, c ∈ hexDigits) → (∀ c ∈ l2, c ∈ hexDigits) →
    l1.foldl (fun acc c => 16 * acc + hexVal c) acc1
      = l2.foldl (fun acc c => 16 * acc + hexVal c) acc2 →
    acc1 = acc2 ∧ l1 = l2 := by
  intro l1
  induction l1 with
  | nil =>
    intro l2 acc1 acc2 hlen _ _ h
    cases l2 with
    | nil => exact ⟨by simpa using h, rfl⟩
    | cons c r => simp at hlen
  | cons c1 r1 ih =>
    intro l2 acc1 acc2 hlen hh1 hh2 h
    cases l2 with
    | nil => simp at hlen
    | cons c2 r2 =>
      simp only [List.foldl_cons] at h
      have hlen2 : r1.length = r2.length := by simpa using hlen
      obtain ⟨hacc, hrest⟩ := ih r2 _ _ hlen2
        (fun x hx => hh1 x (by simp [hx])) (fun x hx => hh2 x (by simp [hx])) h
      have hv1 := hexVal_lt c1 (hh1 c1 (by simp))
      have hv2 := hexVal_lt c2 (hh2 c2 (by simp))
      have hacc' : acc1 = acc2 ∧ hexVal c1 = hexVal c2 := by omega
      have hc := hexVal_inj_on_hex c1 (hh1 c1 (by simp)) c2 (hh2 c2 (by simp)) hacc'.2
      exact ⟨hacc'.1, by rw [hc, hrest]⟩

/-- Every character of a hex digest is a hex digit. -/
theorem hexOfBytes_chars (bytes : List Nat) : ∀ c ∈ hexOfBytes bytes, c ∈ hexDigits := by
  intro c hc
  unfold hexOfBytes at hc
  rcases List.mem_flatMap.1 hc with ⟨b, _, hcb⟩
  have hmem : ∀ n, hexChar n ∈ hexDigits := by
    intro n
    unfold hexChar
    by_cases hn : n < hexDigits.length
    · rw [List.getD_eq_getElem hexDigits '0' hn]
      exact List.getElem_mem hn
    · rw [List.getD_eq_default hexDigits '0' (by omega)]
      decide
  rcases List.mem_cons.1 hcb with hcb | hcb
  · rw [hcb]; exact hmem _
  · rcases List.mem_cons.1 hcb with hcb | hcb
    · rw [hcb]; exact hmem _
    · cases hcb

/-- The digest of SHA-256 always has 32 bytes, so the hex digest has 64
characters. -/
theorem hexOfBytes_sha256_length (msg : List Nat) :
    (hexOfBytes (sha256 msg)).length = 64 := rfl

/-- A chunk id is 16 characters long. -/
theorem generate_chunk_id_length (text : String) (position : Option (Int × Int)) :
    (generate_chunk_id text position).length = 16 := by
  show ((hexOfBytes (sha256 (utf8Encode (chunkIdContent text position)))).take 16).length = 16
  rw [List.length_take, hexOfBytes_sha256_length]
  rfl

/-- Every character of a chunk id is a hex digit. -/
theorem generate_chunk_id_chars (text : String) (position : Option (Int × Int)) :
    ∀ c ∈ (generate_chunk_id text position).data, c ∈ hexDigits := by
  intro c hc
  have hc2 : c ∈ hexOfBytes (sha256 (utf8Encode (chunkIdContent text position))) :=
    List.take_subset 16 _ hc
  exact hexOfBytes_chars _ c hc2

/-- The all-`'a'` string of length `n`. -/
def aText (n : Nat) : String := ⟨List.replicate n 'a'⟩

/-- Distinct lengths give distinct strings. -/
theorem aText_inj {m n : Nat} (h : m ≠ n) : aText m ≠ aText n := by
  intro he
  have hlen : (List.replicate m 'a').length = (List.replicate n 'a').length :=
    congrArg List.length (congrArg String.data he)
  rw [List.length_replicate, List.length_replicate] at hlen
  exact h hlen

/-- C5 counterexample.  The claimed injectivity of `_generate_chunk_id`
in the text argument is impossible: the id is a 16-hex-character
truncation, so it ranges over at most `16 ^ 16` values while the texts
are unbounded; by the pigeonhole principle two distinct texts share an
id at the same position.  (No explicit collision is feasible to print,
so the claim is refuted by proving its negation.) -/
theorem c5_injectivity_counterexample :
    ((∀ (pos : Option (Int × Int)) (ta tb : String), ta ≠ tb →
        generate_chunk_id ta pos ≠ generate_chunk_id tb pos)
      ∧ (∀ (t : String) (pa pb : Option (Int × Int)), pa ≠ pb →
        generate_chunk_id t pa ≠ generate_chunk_id t pb)) ↔ False := by
  constructor
  · rintro ⟨htext, _⟩
    have hbound : ∀ n : Nat,
        encodeHexNat (generate_chunk_id (aText n) none).data < 16 ^ 16 := by
      intro n
      refine encodeHexNat_lt ?_ (generate_chunk_id_chars _ _)
      exact generate_chunk_id_length (aText n) none
    obtain ⟨m, n, hmn, heq⟩ := Finite.exists_ne_map_eq_of_infinite
      (fun n : Nat => (⟨encodeHexNat (generate_chunk_id (aText n) none).data,
        hbound n⟩ : Fin (16 ^ 16)))
    have hval : encodeHexNat (generate_chunk_id (aText m) none).data
        = encodeHexNat (generate_chunk_id (aText n) none).data :=
      congrArg Fin.val heq
    have hlen : (generate_chunk_id (aText m) none).data.length
        = (generate_chunk_id (aText n) none).data.length := by
      show (generate_chunk_id (aText m) none).length
        = (generate_chunk_id (aText n) none).length
      rw [generate_chunk_id_length, generate_chunk_id_length]
    obtain ⟨_, hdata⟩ := encodeHexNat_aux_inj _ _ 0 0 hlen
      (generate_chunk_id_chars _ _) (generate_chunk_id_chars _ _) hval
    exact htext none (aText m) (aText n) (aText_inj hmn) (String.ext hdata)
  · intro h
    exact h.elim

/-- C5 amended.  What *is* injective in each argument is the pre-hash
content string `f"{text}|{position}"` that `_generate_chunk_id` hashes:
distinct texts at one position, or distinct positions under one text,
always hash distinct content strings; the id itself is the 16-character
hex truncation of the content's SHA-256, deterministic but (pigeonhole)
not injective. -/
theorem c5_content_identity_sensitivity :
    (∀ (pos : Option (Int × Int)) (ta tb : String), ta ≠ tb →
        chunkIdContent ta pos ≠ chunkIdContent tb pos)
      ∧ (∀ (t : String) (pa pb : Option (Int × Int)), pa ≠ pb →
        chunkIdContent t pa ≠ chunkIdContent t pb)
      ∧ (∀ (t : String) (p : Option (Int × Int)),
        (generate_chunk_id t p).length = 16) := by
  refine ⟨fun pos ta tb hne h => ?_, fun t pa pb hne h => ?_, generate_chunk_id_length⟩
  · unfold chunkIdContent at h
    have hdata := congrArg String.data h
    rw [String.data_append, String.data_append, String.data_append,
      String.data_append] at hdata
    rw [List.append_assoc, List.append_assoc] at hdata
    have := List.append_cancel_right hdata
    exact hne (String.ext this)
  · unfold chunkIdContent at h
    have hdata := congrArg String.data h
    rw [String.data_append, String.data_append, String.data_append,
      String.data_append] at hdata
    have h1 := List.append_cancel_left hdata
    exact hne (posReprStr_inj (String.ext h1))

/-! ## Claim C1: the token-budget invariant -/

/-- Where a chunk of `_group_sentences_into_chunks` came from: assembled
whole sentences, or one hard-split piece of an oversized sentence. -/
inductive GroupOrigin where
  | assembled (sentences : List Sentence)
  | hardPiece (oversized : Sentence)
deriving Repr

/-- `appendHardChunks` with each chunk's origin recorded. -/
def appendHardChunksA (tok : Tokenizer) (source : Option String)
    (section_header : Option String) (s : Sentence)
    (chunks : List (Chunk × GroupOrigin)) (pieces : List String) :
    List (Chunk × GroupOrigin) :=
  pieces.foldl (fun acc hc =>
    acc ++ [(mkChunk hc
      { source := source, position := some ((s.start : Int), (s.endPos : Int)),
        section_header := section_header, chunk_index := some acc.length }
      [(tok.name, tok.count_tokens hc)], GroupOrigin.hardPiece s)]) chunks

/-- `groupLoop` with each chunk's origin recorded (erasing the origins
recovers `groupLoop`, proved below). -/
def groupLoopA (tok : Tokenizer) (max_tokens overlap_tokens : Int)
    (source section_header : Option String) (chunks : List (Chunk × GroupOrigin))
    (current : List Sentence) (curTok : Int) :
    List Sentence → Option (List (Chunk × GroupOrigin))
  | [] =>
    if current.isEmpty then some chunks
    else some (chunks
      ++ [(create_chunk tok source current section_header chunks.length,
        GroupOrigin.assembled current)])
  | s :: rest =>
    let t := tok.count_tokens s.text
    if t > max_tokens then
      let chunks1 := if current.isEmpty then chunks
        else chunks
          ++ [(create_chunk tok source current section_header chunks.length,
            GroupOrigin.assembled current)]
      match hard_split tok s.text max_tokens with
      | none => none
      | some pieces =>
        groupLoopA tok max_tokens overlap_tokens source section_header
          (appendHardChunksA tok source section_header s chunks1 pieces) [] 0 rest
    else if curTok + t > max_tokens && !current.isEmpty then
      let chunks1 := chunks
        ++ [(create_chunk tok source current section_header chunks.length,
          GroupOrigin.assembled current)]
      let overlap := get_overlap_sentences tok overlap_tokens current
      groupLoopA tok max_tokens overlap_tokens source section_header
        chunks1 (overlap ++ [s]) (sentTokenSum tok overlap + t) rest
    else
      groupLoopA tok max_tokens overlap_tokens source section_header
        chunks (current ++ [s]) (curTok + t) rest

/-- Erasing origins from `appendHardChunksA` gives `appendHardChunks`. -/
theorem appendHardChunksA_fst (tok : Tokenizer) (source section_header : Option String)
    (s : Sentence) : ∀ (pieces : List String) (chunks : List (Chunk × GroupOrigin)),
    (appendHardChunksA tok source section_header s chunks pieces).map Prod.fst
      = appendHardChunks tok source section_header s (chunks.map Prod.fst) pieces := by
  intro pieces
  induction pieces with
  | nil => intro chunks; rfl
  | cons hc rest ih =>
    intro chunks
    unfold appendHardChunksA appendHardChunks
    simp only [List.foldl_cons]
    have := ih (chunks ++ [(mkChunk hc
      { source := source, position := some ((s.start : Int), (s.endPos : Int)),
        section_header := section_header, chunk_index := some chunks.length }
      [(tok.name, tok.count_tokens hc)], GroupOrigin.hardPiece s)])
    unfold appendHardChunksA appendHardChunks at this
    rw [this]
    simp

/-- Erasing origins from `groupLoopA` gives `groupLoop`. -/
theorem groupLoopA_fst (tok : Tokenizer) (max_tokens overlap_tokens : Int)
    (source section_header : Option String) :
    ∀ (rest : List Sentence) (chunks : List (Chunk × GroupOrigin))
      (current : List Sentence) (curTok : Int),
    (groupLoopA tok max_tokens overlap_tokens source section_header chunks current
        curTok rest).map (List.map Prod.fst)
      = groupLoop tok max_tokens overlap_tokens source section_header
        (chunks.map Prod.fst) current curTok rest := by
  intro rest
  induction rest with
  | nil =>
    intro chunks current curTok
    unfold groupLoopA groupLoop
    by_cases hcur : current.isEmpty
    · simp [hcur]
    · simp [hcur]
  | cons s rest ih =>
    intro chunks current curTok
    unfold groupLoopA groupLoop
    by_cases hts : tok.count_tokens s.text > max_tokens
    · rw [if_pos hts, if_pos hts]
      cases hsp : hard_split tok s.text max_tokens with
      | none => simp
      | some pieces =>
        simp only []
        rw [ih]
        by_cases hcur : current.isEmpty
        · simp only [hcur, if_true]
          rw [appendHardChunksA_fst]
        · simp only [hcur, if_false, Bool.false_eq_true]
          rw [appendHardChunksA_fst]
          simp
    · rw [if_neg hts, if_neg hts]
      by_cases hover : (decide (curTok + tok.count_tokens s.text > max_tokens)
          && !current.isEmpty) = true
      · simp only [hover, if_true]
        rw [ih]
        simp
      · simp only [hover, if_false, Bool.false_eq_true]
        rw [ih]

/-- The budget facts attached to one annotated chunk: an assembled chunk
is the space-join of sentences whose token counts sum within the budget;
a hard-split chunk comes from a sentence that alone exceeds the budget,
and under the character tokenizer its own count fits the budget. -/
def BudgetOrigin (tok : Tokenizer) (max_tokens : Int) (pr : Chunk × GroupOrigin) :
    Prop :=
  (∀ sl, pr.2 = GroupOrigin.assembled sl →
      sentTokenSum tok sl ≤ max_tokens ∧ pr.1.text = joinSentences sl)
    ∧ (∀ s, pr.2 = GroupOrigin.hardPiece s →
      max_tokens < tok.count_tokens s.text
        ∧ (tok = characterTokenizer →
          characterTokenizer.count_tokens pr.1.text ≤ max_tokens))

/-- `_hard_split` succeeds for a positive budget, and under the character
tokenizer every piece fits the budget. -/
theorem hard_split_pieces (tok : Tokenizer) (text : String) (max_tokens : Int)
    (hmax : 1 ≤ max_tokens) :
    ∃ pieces, hard_split tok text max_tokens = some pieces
      ∧ (tok = characterTokenizer →
        ∀ p ∈ pieces, characterTokenizer.count_tokens p ≤ max_tokens) := by
  unfold hard_split
  by_cases hlen : ((tok.encode text).length : Int) ≤ max_tokens
  · refine ⟨[text], by rw [if_pos hlen], fun htok p hp => ?_⟩
    rw [List.mem_singleton] at hp
    subst htok
    rw [hp]
    show max 1 (text.length : Int) ≤ max_tokens
    have he : (characterTokenizer.encode text).length = text.length := by
      show (text.data.map fun c => ((c.toNat : Int))).length = text.length
      rw [List.length_map]
      rfl
    rw [he] at hlen
    omega
  · rw [if_neg hlen, if_neg (by omega : ¬max_tokens = 0),
      if_neg (by omega : ¬max_tokens < 0)]
    refine ⟨_, rfl, fun htok p hp => ?_⟩
    rcases List.mem_map.1 hp with ⟨i, _, rfl⟩
    subst htok
    show max 1 ((characterTokenizer.decode _).length : Int) ≤ max_tokens
    have hplen : (characterTokenizer.decode
        (((characterTokenizer.encode text).drop i).take max_tokens.toNat)).length
        ≤ max_tokens.toNat := by
      show (((((characterTokenizer.encode text).drop i).take max_tokens.toNat)).map
        fun t => Char.ofNat t.natAbs).length ≤ max_tokens.toNat
      rw [List.length_map]
      exact le_trans (List.length_take_le _ _) (le_refl _)
    have h2 : ((characterTokenizer.decode
        (((characterTokenizer.encode text).drop i).take max_tokens.toNat)).length : Int)
        ≤ max_tokens := by
      calc ((characterTokenizer.decode _).length : Int)
          ≤ (max_tokens.toNat : Int) := by exact_mod_cast hplen
        _ = max_tokens := Int.toNat_of_nonneg (by omega)
    omega

/-- `sentTokenSum` over an appended sentence. -/
theorem sentTokenSum_append (tok : Tokenizer) (l : List Sentence) (s : Sentence) :
    sentTokenSum tok (l ++ [s]) = sentTokenSum tok l + tok.count_tokens s.text := by
  unfold sentTokenSum
  simp

/-- With a non-positive overlap budget the overlap window is empty. -/
theorem get_overlap_sentences_of_nonpos (tok : Tokenizer) {overlap_tokens : Int}
    (h : overlap_tokens ≤ 0) (sentences : List Sentence) :
    get_overlap_sentences tok overlap_tokens sentences = [] := by
  unfold get_overlap_sentences
  rw [decide_eq_true h]
  rfl

/-- Hard-split chunks appended to a good list keep every chunk good. -/
theorem appendHardChunksA_budget (tok : Tokenizer) (max_tokens : Int)
    (source section_header : Option String) (s : Sentence)
    (hts : max_tokens < tok.count_tokens s.text)
    (hchar : tok = characterTokenizer →
      ∀ p ∈ pieces, characterTokenizer.count_tokens p ≤ max_tokens) :
    ∀ (chunks : List (Chunk × GroupOrigin)),
    (∀ pr ∈ chunks, BudgetOrigin tok max_tokens pr) →
    ∀ pr ∈ appendHardChunksA tok source section_header s chunks pieces,
      BudgetOrigin tok max_tokens pr := by
  induction pieces with
  | nil => intro chunks hgood pr hpr; exact hgood pr hpr
  | cons hc rest ih =>
    intro chunks hgood pr hpr
    unfold appendHardChunksA at hpr
    rw [List.foldl_cons] at hpr
    refine ih (fun htok p hp => hchar htok p (by simp [hp])) _ ?_ pr hpr
    intro pr2 hpr2
    rcases List.mem_append.1 hpr2 with hpr2 | hpr2
    · exact hgood pr2 hpr2
    · rw [List.mem_singleton] at hpr2
      subst hpr2
      constructor
      · intro sl hsl
        cases hsl
      · intro s2 hs2
        cases hs2
        refine ⟨hts, fun htok => ?_⟩
        exact hchar htok hc (by simp)

/-- The grouping loop invariant: with no overlap seeding and a positive
budget, it succeeds and every chunk it ever emits is budget-good. -/
theorem groupLoopA_budget (tok : Tokenizer) (max_tokens overlap_tokens : Int)
    (source section_header : Option String) (hov : overlap_tokens ≤ 0)
    (hmax : 1 ≤ max_tokens) :
    ∀ (rest : List Sentence) (chunks : List (Chunk × GroupOrigin))
      (current : List Sentence) (curTok : Int),
    curTok = sentTokenSum tok current →
    sentTokenSum tok current ≤ max_tokens →
    (∀ pr ∈ chunks, BudgetOrigin tok max_tokens pr) →
    ∃ outA, groupLoopA tok max_tokens overlap_tokens source section_header chunks
        current curTok rest = some outA
      ∧ ∀ pr ∈ outA, BudgetOrigin tok max_tokens pr := by
  intro rest
  induction rest with
  | nil =>
    intro chunks current curTok hcur hsum hgood
    unfold groupLoopA
    by_cases hcure : current.isEmpty
    · exact ⟨chunks, by rw [if_pos hcure], hgood⟩
    · refine ⟨_, by rw [if_neg hcure], ?_⟩
      intro pr hpr
      rcases List.mem_append.1 hpr with hpr | hpr
      · exact hgood pr hpr
      · rw [List.mem_singleton] at hpr
        subst hpr
        constructor
        · intro sl hsl
          cases hsl
          exact ⟨hsum, rfl⟩
        · intro s2 hs2
          cases hs2
  | cons s rest ih =>
    intro chunks current curTok hcur hsum hgood
    unfold groupLoopA
    by_cases hts : tok.count_tokens s.text > max_tokens
    · rw [if_pos (by exact hts)]
      obtain ⟨pieces, hsp, hchar⟩ := hard_split_pieces tok s.text max_tokens hmax
      rw [hsp]
      simp only []
      set chunks1 := if current.isEmpty then chunks
        else chunks
          ++ [(create_chunk tok source current section_header chunks.length,
            GroupOrigin.assembled current)] with hchunks1
      have hgood1 : ∀ pr ∈ chunks1, BudgetOrigin tok max_tokens pr := by
        rw [hchunks1]
        by_cases hcure : current.isEmpty
        · rw [if_pos hcure]
          exact hgood
        · rw [if_neg hcure]
          intro pr hpr
          rcases List.mem_append.1 hpr with hpr | hpr
          · exact hgood pr hpr
          · rw [List.mem_singleton] at hpr
            subst hpr
            exact ⟨fun sl hsl => by cases hsl; exact ⟨hsum, rfl⟩,
              fun s2 hs2 => by cases hs2⟩
      refine ih _ [] 0 rfl (by unfold sentTokenSum; simp; omega) ?_
      exact appendHardChunksA_budget tok max_tokens source section_header s hts hchar
        chunks1 hgood1
    · rw [if_neg hts]
      by_cases hover : (decide (curTok + tok.count_tokens s.text > max_tokens)
          && !current.isEmpty) = true
      · rw [if_pos hover]
        rw [get_overlap_sentences_of_nonpos tok hov]
        refine ih _ _ _ ?_ ?_ ?_
        · unfold sentTokenSum
          simp
        · unfold sentTokenSum
          simp
          omega
        · intro pr hpr
          rcases List.mem_append.1 hpr with hpr | hpr
          · exact hgood pr hpr
          · rw [List.mem_singleton] at hpr
            subst hpr
            exact ⟨fun sl hsl => by cases hsl; exact ⟨hsum, rfl⟩,
              fun s2 hs2 => by cases hs2⟩
      · rw [if_neg hover]
        refine ih chunks (current ++ [s]) (curTok + tok.count_tokens s.text)
          ?_ ?_ hgood
        · rw [sentTokenSum_append, hcur]
        · rw [sentTokenSum_append, ← hcur]
          rcases Bool.and_eq_false_iff.1 (Bool.not_eq_true _ ▸ hover) with hc | hc
          · have := of_decide_eq_false hc
            omega
          · have hce : current.isEmpty := by
              cases hcc : current.isEmpty
              · rw [hcc] at hc
                cases hc
              · rfl
            have : current = [] := List.isEmpty_iff.1 hce
            subst this
            unfold sentTokenSum at hcur
            simp at hcur
            omega

/-- C1 counterexample.  The budget invariant fails on the code.  With the
character tokenizer and `max_tokens = 7`, chunking `"Ab. Cde."` emits one
chunk whose text counts 8 tokens: the accumulator sums per-sentence
counts (3 + 4 = 7 ≤ 7) but the emitted text joins the sentences with an
uncounted space.  And with `max_tokens = 10, overlap_tokens = 9`,
chunking `"Abcdefgh. Bcdefghi."` emits a second chunk counting 19
tokens: the overlap seed (9) plus the triggering sentence (9) is
appended with no further budget check. -/
theorem c1_budget_counterexample :
    ((mkTextChunker 7 0 characterTokenizer true true 50 none).chunk "Ab. Cde." none).map
        (List.map fun c => (c.text, characterTokenizer.count_tokens c.text))
        = some [("Ab. Cde.", 8)]
      ∧ characterTokenizer.count_tokens "Ab. Cde." > (7 : Int)
      ∧ ((mkTextChunker 10 9 characterTokenizer true true 50 none).chunk
          "Abcdefgh. Bcdefghi." none).map
        (List.map fun c => characterTokenizer.count_tokens c.text) = some [9, 19]
      ∧ (19 : Int) > 10 :=
  ⟨by decide, by decide, by decide, by decide⟩

/-- C1 amended.  With no overlap seeding (`overlap_tokens ≤ 0`) and a
positive budget, grouping succeeds and every chunk is budget-good in the
sense that survives the counterexamples: a whole-sentence chunk's
*per-sentence token counts sum* to at most `max_tokens` (its joined text
may still count more, by the uncounted separator spaces), and a
hard-split chunk comes from a sentence exceeding the budget alone and —
under the character tokenizer — itself counts at most `max_tokens`.
Overlap-seeded accumulators (`overlap_tokens > 0`) carry no such bound. -/
theorem c1_budget_invariant (tok : Tokenizer) (max_tokens overlap_tokens : Int)
    (source section_header : Option String) (sentences : List Sentence)
    (hov : overlap_tokens ≤ 0) (hmax : 1 ≤ max_tokens) :
    ∃ outA, groupLoopA tok max_tokens overlap_tokens source section_header [] [] 0
        sentences = some outA
      ∧ group_sentences_into_chunks tok max_tokens overlap_tokens source sentences
          section_header = some (outA.map Prod.fst)
      ∧ ∀ pr ∈ outA, BudgetOrigin tok max_tokens pr := by
  obtain ⟨outA, hloop, hgood⟩ := groupLoopA_budget tok max_tokens overlap_tokens
    source section_header hov hmax sentences [] [] 0 rfl
    (by unfold sentTokenSum; simp; omega) (by intro pr hpr; cases hpr)
  refine ⟨outA, hloop, ?_, hgood⟩
  unfold group_sentences_into_chunks
  by_cases hs : sentences.isEmpty
  · have hsent : sentences = [] := List.isEmpty_iff.1 hs
    subst hsent
    simp only [groupLoopA, List.isEmpty_nil, if_true] at hloop
    have houtA : outA = [] := by
      injection hloop with h2
      exact h2.symm
    subst houtA
    rfl
  · rw [if_neg hs]
    have hfst := groupLoopA_fst tok max_tokens overlap_tokens source section_header
      sentences [] [] 0
    rw [hloop] at hfst
    exact hfst.symm

/-- C1's witness: the invariant applied to the two sentences of
`"Ab. Cde."` with the character tokenizer and a budget of 7. -/
theorem c1_budget_invariant_witness :
    ∃ outA, groupLoopA characterTokenizer 7 0 none none [] [] 0
        [⟨"Ab.", 0, 3⟩, ⟨"Cde.", 4, 8⟩] = some outA
      ∧ group_sentences_into_chunks characterTokenizer 7 0 none
          [⟨"Ab.", 0, 3⟩, ⟨"Cde.", 4, 8⟩] none = some (outA.map Prod.fst)
      ∧ ∀ pr ∈ outA, BudgetOrigin characterTokenizer 7 pr :=
  c1_budget_invariant characterTokenizer 7 0 none none
    [⟨"Ab.", 0, 3⟩, ⟨"Cde.", 4, 8⟩] (by decide) (by decide)

/-! ## Claim C2: code-block atomicity -/

/-- The matches a scan produces, with their lower bounds: each match
starts at or after the running position, is sound for the matcher, and
subsequent matches start at or after its end. -/
def ScanOrd (matchAt : List Char → Nat → Option Nat) (cs : List Char) :
    Nat → List (Nat × Nat) → Prop
  | _, [] => True
  | i, m :: ms => i ≤ m.1 ∧ matchAt cs m.1 = some m.2 ∧ ScanOrd matchAt cs m.2 ms

/-- `ScanOrd` weakens to smaller running positions. -/
theorem ScanOrd.mono {matchAt : List Char → Nat → Option Nat} {cs : List Char} :
    ∀ {ms : List (Nat × Nat)} {i j : Nat}, i ≤ j → ScanOrd matchAt cs j ms →
    ScanOrd matchAt cs i ms := by
  intro ms
  cases ms with
  | nil => intro i j _ _; trivial
  | cons m rest =>
    intro i j hij h
    exact ⟨le_trans hij h.1, h.2.1, h.2.2⟩

/-- The scanner only emits sound, ordered matches. -/
theorem scanFromF_ord (matchAt : List Char → Nat → Option Nat) (cs : List Char) :
    ∀ (fuel i : Nat), ScanOrd matchAt cs i (scanFromF matchAt cs fuel i) := by
  intro fuel
  induction fuel with
  | zero => intro i; trivial
  | succ fuel ih =>
    intro i
    unfold scanFromF
    by_cases hi : i < cs.length
    · rw [if_pos hi]
      cases hm : matchAt cs i with
      | none =>
        show ScanOrd matchAt cs i (scanFromF matchAt cs fuel (i + 1))
        exact ScanOrd.mono (by omega) (ih (i + 1))
      | some e =>
        show ScanOrd matchAt cs i ((i, e) :: scanFromF matchAt cs fuel (max e (i + 1)))
        exact ⟨le_refl i, hm, ScanOrd.mono (le_max_left _ _) (ih (max e (i + 1)))⟩
    · rw [if_neg hi]
      trivial

/-- `scanFrom` only emits sound, ordered matches. -/
theorem scanFrom_ord (matchAt : List Char → Nat → Option Nat) (cs : List Char)
    (i : Nat) : ScanOrd matchAt cs i (scanFrom matchAt cs i) :=
  scanFromF_ord matchAt cs (cs.length - i) i

/-- What a boundary match guarantees: the punctuation character at its
start, whitespace strictly between start and end, and the end within the
text and past the start. -/
theorem matchBoundaryAt_facts {cs : List Char} {p e : Nat}
    (h : matchBoundaryAt cs p = some e) :
    (charAt cs p = '.' ∨ charAt cs p = '!' ∨ charAt cs p = '?')
      ∧ p + 1 < e ∧ e < cs.length
      ∧ ∀ k, p + 1 ≤ k → k < e → pyIsSpace (charAt cs k) = true := by
  unfold matchBoundaryAt at h
  by_cases hp : (charAt cs p = '.' || charAt cs p = '!' || charAt cs p = '?') = true
  · rw [if_pos hp] at h
    by_cases hcond : (1 ≤ runLength pyIsSpace cs (p + 1)
        && decide (p + 1 + runLength pyIsSpace cs (p + 1) < cs.length)
        && (isUpperAscii (charAt cs (p + 1 + runLength pyIsSpace cs (p + 1)))
            || charAt cs (p + 1 + runLength pyIsSpace cs (p + 1)) = '"'
            || charAt cs (p + 1 + runLength pyIsSpace cs (p + 1)) = '\''
            || charAt cs (p + 1 + runLength pyIsSpace cs (p + 1)) = '('
            || charAt cs (p + 1 + runLength pyIsSpace cs (p + 1)) = '['
            || isDigitAscii (charAt cs (p + 1 + runLength pyIsSpace cs (p + 1))))) = true
    · rw [if_pos hcond] at h
      injection h with he
      subst he
      rcases Bool.and_eq_true_iff.1 hcond with ⟨hc1, _⟩
      rcases Bool.and_eq_true_iff.1 hc1 with ⟨hw1, hlt⟩
      have hw1' : 1 ≤ runLength pyIsSpace cs (p + 1) := by
        have := of_decide_eq_true hw1
        omega
      have hlt' : p + 1 + runLength pyIsSpace cs (p + 1) < cs.length :=
        of_decide_eq_true hlt
      refine ⟨?_, by omega, hlt', ?_⟩
      · rcases Bool.or_eq_true_iff.1 hp with hp1 | hp2
        · rcases Bool.or_eq_true_iff.1 hp1 with hp1 | hp1
          · exact Or.inl (by simpa using hp1)
          · exact Or.inr (Or.inl (by simpa using hp1))
        · exact Or.inr (Or.inr (by simpa using hp2))
      · intro k hk1 hk2
        have hkw : k - (p + 1) < runLength pyIsSpace cs (p + 1) := by omega
        unfold runLength at hkw
        set tw := (cs.drop (p + 1)).takeWhile pyIsSpace with htw
        have hdroplen : k - (p + 1) < (cs.drop (p + 1)).length := by
          rw [List.length_drop]
          omega
        have hkcs : k < cs.length := by omega
        have hmem : tw[k - (p + 1)] ∈ tw := List.getElem_mem _
        have hsp := List.mem_takeWhile_imp hmem
        have hpre : tw <+: cs.drop (p + 1) := List.takeWhile_prefix _
        have hgete : tw[k - (p + 1)] = (cs.drop (p + 1))[k - (p + 1)] :=
          hpre.getElem _
        have hgetd : (cs.drop (p + 1))[k - (p + 1)] = cs[k] := by
          rw [List.getElem_drop]
          congr 1
          omega
        have hcharAt : charAt cs k = cs[k] :=
          List.getD_eq_getElem cs '\x00' _
        rw [hcharAt, ← hgetd, ← hgete]
        exact hsp
    · rw [if_neg hcond] at h
      cases h
  · rw [if_neg hp] at h
    cases h

/-- `P` occurs in `cs` at position `a`. -/
def occursAt (P cs : List Char) (a : Nat) : Prop :=
  a + P.length ≤ cs.length ∧ slice cs a (a + P.length) = P

/-- An infix occurrence has a position. -/
theorem occursAt_of_infix {P cs : List Char} (h : P <:+: cs) :
    ∃ a, occursAt P cs a := by
  rcases h with ⟨s, t, rfl⟩
  refine ⟨s.length, ?_, ?_⟩
  · simp only [List.length_append]
    omega
  · unfold slice
    rw [List.append_assoc, List.drop_left]
    have : s.length + P.length - s.length = P.length := by omega
    rw [this, List.take_left]

/-- A positioned occurrence is an infix. -/
theorem infix_of_occursAt {P cs : List Char} {a : Nat} (h : occursAt P cs a) :
    P <:+: cs := by
  rcases h with ⟨hle, hslice⟩
  set L := P.length with hL
  refine ⟨cs.take a, cs.drop (a + L), ?_⟩
  rw [← hslice]
  calc cs.take a ++ slice cs a (a + L) ++ cs.drop (a + L)
      = cs.take a ++ (cs.drop a).take L ++ cs.drop (a + L) := by
        unfold slice
        rw [show a + L - a = L from by omega]
    _ = cs.take (a + L) ++ cs.drop (a + L) := by rw [List.take_add]
    _ = cs := List.take_append_drop _ _

/-- Characters inside an occurrence. -/
theorem occursAt_charAt {P cs : List Char} {a : Nat} (h : occursAt P cs a)
    {k : Nat} (hk : k < P.length) : charAt cs (a + k) = charAt P k := by
  rcases h with ⟨hle, hslice⟩
  have hlen : k < (slice cs a (a + P.length)).length := by
    rw [hslice]
    exact hk
  have hdrop : k < (cs.drop a).length := by
    rw [List.length_drop]
    omega
  have hak : a + k < cs.length := by
    rw [List.length_drop] at hdrop
    omega
  have hdrop2 : k < (cs.drop a).length := by
    rw [List.length_drop]
    omega
  have h1 : (slice cs a (a + P.length))[k] = P[k] := by
    congr 1
  have h2 : (slice cs a (a + P.length))[k] = (cs.drop a)[k] := by
    unfold slice
    exact List.getElem_take _
  have h3 : (cs.drop a)[k] = cs[a + k] := List.getElem_drop cs
  have hc1 : charAt cs (a + k) = cs[a + k] := List.getD_eq_getElem cs '\x00' _
  have hc2 : charAt P k = P[k] := List.getD_eq_getElem P '\x00' _
  rw [hc1, hc2, ← h3, ← h2, h1]

/-- A member of an occurring pattern. -/
theorem occursAt_mem {P cs : List Char} {a : Nat} (h : occursAt P cs a)
    {k : Nat} (hk : k < P.length) : charAt P k ∈ P := by
  have hgd : charAt P k = P[k] := List.getD_eq_getElem P '\x00' _
  rw [hgd]
  exact List.getElem_mem _

/-- Dropping a satisfying prefix preserves an infix whose characters all
fail the predicate. -/
theorem infix_dropWhile_of_not {p : Char → Bool} {P : List Char}
    (hPchars : ∀ c ∈ P, p c = false) :
    ∀ {l : List Char}, P <:+: l → P <:+: l.dropWhile p := by
  intro l
  induction l with
  | nil => intro h; simpa using h
  | cons c t ih =>
    intro h
    by_cases hc : p c
    · rw [List.dropWhile_cons_of_pos hc]
      rcases List.infix_cons_iff.1 h with h | h
      · cases P with
        | nil => exact List.nil_infix
        | cons c0 P0 =>
          rcases List.cons_prefix_cons.1 h with ⟨rfl, _⟩
          have := hPchars c0 (by simp)
          rw [hc] at this
          cases this
      · exact ih h
    · rw [List.dropWhile_cons_of_neg hc]
      exact h

/-- Stripping preserves an all-non-whitespace infix. -/
theorem infix_pyStrip {P cs : List Char} (hPchars : ∀ c ∈ P, pyIsSpace c = false)
    (h : P <:+: cs) : P <:+: pyStrip cs := by
  unfold pyStrip
  have h1 : P <:+: cs.dropWhile pyIsSpace := infix_dropWhile_of_not hPchars h
  have h2 : P.reverse <:+: (cs.dropWhile pyIsSpace).reverse := List.reverse_infix.2 h1
  have h3 : P.reverse <:+: ((cs.dropWhile pyIsSpace).reverse.dropWhile pyIsSpace) :=
    infix_dropWhile_of_not (fun c hc => hPchars c (List.mem_reverse.1 hc)) h2
  have h4 := List.reverse_infix.2 h3
  rwa [List.reverse_reverse] at h4

/-- An occurrence at or past `cur` is an infix of the tail slice. -/
theorem occursAt_slice_tail {P cs : List Char} {a cur stop : Nat}
    (h : occursAt P cs a) (hcur : cur ≤ a) (hstop : a + P.length ≤ stop) :
    P <:+: slice cs cur stop := by
  rcases h with ⟨hle, hslice⟩
  set L := P.length with hL
  refine ⟨slice cs cur a, slice cs (a + L) stop, ?_⟩
  rw [← hslice]
  unfold slice
  have hd1 : cs.drop a = (cs.drop cur).drop (a - cur) := by
    rw [List.drop_drop]
    congr 1
    omega
  have hd2 : cs.drop (a + L) = ((cs.drop cur).drop (a - cur)).drop L := by
    rw [List.drop_drop, List.drop_drop]
    congr 1
    omega
  rw [hd1, hd2]
  rw [show a + L - a = L from by omega]
  rw [List.append_assoc, ← List.take_add, ← List.take_add]
  congr 1
  omega

/-- The keystone: an occurrence of a pattern with no sentence punctuation
and no whitespace either ends within the sentence a boundary match
closes (at `p + 1`), or starts at or past the match's end — it cannot
straddle the boundary. -/
theorem occurrence_vs_boundary {cs P : List Char} {a p e : Nat} (hP : P ≠ [])
    (hPws : ∀ c ∈ P, pyIsSpace c = false)
    (hPpunct : ∀ c ∈ P, ¬(c = '.' ∨ c = '!' ∨ c = '?'))
    (hocc : occursAt P cs a) (hb : matchBoundaryAt cs p = some e) :
    a + P.length ≤ p + 1 ∨ e ≤ a := by
  obtain ⟨hpunct, hpe, helen, hws⟩ := matchBoundaryAt_facts hb
  by_cases h1 : a + P.length ≤ p + 1
  · exact Or.inl h1
  · right
    by_cases h2 : a ≤ p
    · exfalso
      have hk : p - a < P.length := by omega
      have hchar := occursAt_charAt hocc hk
      rw [show a + (p - a) = p from by omega] at hchar
      have hmem := occursAt_mem hocc hk
      rcases hpunct with hp | hp | hp <;>
        exact hPpunct _ hmem (by rw [← hchar, hp]; simp)
    · by_contra h3
      push_neg at h3
      have hws2 := hws a (by omega) (by omega)
      have h0 : 0 < P.length := List.length_pos.2 hP
      have hchar := occursAt_charAt hocc h0
      rw [Nat.add_zero] at hchar
      have hPws0 := hPws (charAt P 0) (occursAt_mem hocc h0)
      rw [← hchar, hws2] at hPws0
      cases hPws0

/-- The accumulator is a prefix of whatever `segLoop` returns. -/
theorem segLoop_acc_prefix (cs : List Char) :
    ∀ (ms : List (Nat × Nat)) (acc : List Sentence) (cur : Nat),
      acc <+: segLoop cs acc cur ms := by
  intro ms
  induction ms with
  | nil =>
    intro acc cur
    unfold segLoop
    by_cases hr : (pyStrip (slice cs cur cs.length)).isEmpty
    · simp only [hr, if_true]
      exact List.prefix_refl _
    · simp only [hr, Bool.false_eq_true, if_false]
      exact List.prefix_append _ _
  | cons m rest ih =>
    intro acc cur
    unfold segLoop
    by_cases hfe : is_false_ending cs m.1
    · simp only [hfe, if_true]
      exact ih acc cur
    · simp only [hfe, Bool.false_eq_true, if_false]
      by_cases hst : (pyStrip (slice cs cur (m.1 + 1))).isEmpty
      · simp only [hst, if_true]
        exact ih acc m.2
      · simp only [hst, Bool.false_eq_true, if_false]
        exact (List.prefix_append _ _).trans (ih _ m.2)

/-- An occurrence of a whitespace- and punctuation-free pattern at or
past the current sentence start always lands inside the text of some
sentence `segLoop` returns. -/
theorem segLoop_infix {cs P : List Char} (hP : P ≠ [])
    (hPws : ∀ c ∈ P, pyIsSpace c = false)
    (hPpunct : ∀ c ∈ P, ¬(c = '.' ∨ c = '!' ∨ c = '?')) :
    ∀ (ms : List (Nat × Nat)) (acc : List Sentence) (cur a : Nat),
      ScanOrd matchBoundaryAt cs cur ms →
      occursAt P cs a → cur ≤ a →
      ∃ s ∈ segLoop cs acc cur ms, P <:+: s.text.data := by
  intro ms
  induction ms with
  | nil =>
    intro acc cur a _ hocc hcur
    unfold segLoop
    have hinfix : P <:+: slice cs cur cs.length :=
      occursAt_slice_tail hocc hcur hocc.1
    have hstrip : P <:+: pyStrip (slice cs cur cs.length) := infix_pyStrip hPws hinfix
    have hne : (pyStrip (slice cs cur cs.length)).isEmpty = false := by
      cases hr : pyStrip (slice cs cur cs.length) with
      | nil =>
        rw [hr] at hstrip
        exact absurd (List.eq_nil_of_infix_nil hstrip) hP
      | cons c t => rfl
    simp only [hne, Bool.false_eq_true, if_false]
    refine ⟨⟨⟨pyStrip (slice cs cur cs.length)⟩, skipSpaces cs cur, cs.length⟩, ?_, hstrip⟩
    simp
  | cons m rest ih =>
    intro acc cur a hord hocc hcur
    obtain ⟨hcurm, hmatch, hordrest⟩ := hord
    have hfacts := matchBoundaryAt_facts hmatch
    unfold segLoop
    by_cases hfe : is_false_ending cs m.1
    · simp only [hfe, if_true]
      exact ih acc cur a (hordrest.mono (by omega)) hocc hcur
    · simp only [hfe, Bool.false_eq_true, if_false]
      rcases occurrence_vs_boundary hP hPws hPpunct hocc hmatch with hcase | hcase
      · have hinfix : P <:+: slice cs cur (m.1 + 1) :=
          occursAt_slice_tail hocc hcur hcase
        have hstrip : P <:+: pyStrip (slice cs cur (m.1 + 1)) :=
          infix_pyStrip hPws hinfix
        have hne : (pyStrip (slice cs cur (m.1 + 1))).isEmpty = false := by
          cases hr : pyStrip (slice cs cur (m.1 + 1)) with
          | nil =>
            rw [hr] at hstrip
            exact absurd (List.eq_nil_of_infix_nil hstrip) hP
          | cons c t => rfl
        simp only [hne, Bool.false_eq_true, if_false]
        refine ⟨⟨⟨pyStrip (slice cs cur (m.1 + 1))⟩, skipSpaces cs cur, m.1 + 1⟩,
          ?_, hstrip⟩
        have hpre := segLoop_acc_prefix cs rest
          (acc ++ [⟨⟨pyStrip (slice cs cur (m.1 + 1))⟩, skipSpaces cs cur, m.1 + 1⟩]) m.2
        exact hpre.subset (by simp)
      · by_cases hst : (pyStrip (slice cs cur (m.1 + 1))).isEmpty
        · simp only [hst, if_true]
          exact ih acc m.2 a hordrest hocc hcase
        · simp only [hst, Bool.false_eq_true, if_false]
          exact ih _ m.2 a hordrest hocc hcase

/-- An occurrence of a whitespace- and punctuation-free pattern lands
inside some sentence of the segmentation. -/
theorem segment_infix {cs P : List Char} (hP : P ≠ [])
    (hPws : ∀ c ∈ P, pyIsSpace c = false)
    (hPpunct : ∀ c ∈ P, ¬(c = '.' ∨ c = '!' ∨ c = '?'))
    (hocc : P <:+: cs) :
    ∃ s ∈ segmentSentencesL cs, P <:+: s.text.data := by
  obtain ⟨a, hocc'⟩ := occursAt_of_infix hocc
  unfold segmentSentencesL
  have hstrip : P <:+: pyStrip cs := infix_pyStrip hPws hocc
  have hne : (pyStrip cs).isEmpty = false := by
    cases hr : pyStrip cs with
    | nil =>
      rw [hr] at hstrip
      exact absurd (List.eq_nil_of_infix_nil hstrip) hP
    | cons c t => rfl
  rw [hne]
  simp only [Bool.false_eq_true, if_false]
  exact segLoop_infix hP hPws hPpunct _ [] 0 a
    (scanFrom_ord matchBoundaryAt cs 0) hocc' (Nat.zero_le a)

/-- Replacing a needle that occurs in the scanned list plants the
replacement as an infix of the result. -/
theorem infix_replaceCoreF {n : Char} {ntail rep : List Char} :
    ∀ (fuel : Nat) (cs : List Char), cs.length ≤ fuel →
      (n :: ntail) <:+: cs → rep <:+: replaceCoreF n ntail rep fuel cs := by
  intro fuel
  induction fuel with
  | zero =>
    intro cs hlen hocc
    have hnil : cs = [] := List.eq_nil_of_length_eq_zero (by omega)
    rw [hnil] at hocc
    cases List.eq_nil_of_infix_nil hocc
  | succ fuel ih =>
    intro cs hlen hocc
    cases cs with
    | nil => cases List.eq_nil_of_infix_nil hocc
    | cons c rest =>
      show rep <:+: (if (n :: ntail).isPrefixOf (c :: rest) then
          rep ++ replaceCoreF n ntail rep fuel (rest.drop ntail.length)
        else c :: replaceCoreF n ntail rep fuel rest)
      by_cases hpre : (n :: ntail).isPrefixOf (c :: rest)
      · rw [if_pos hpre]
        exact (List.prefix_append _ _).isInfix
      · rw [if_neg hpre]
        rcases List.infix_cons_iff.1 hocc with hca | hca
        · exact absurd (List.isPrefixOf_iff_prefix.2 hca) hpre
        · have hlen' : rest.length ≤ fuel := by
            simp only [List.length_cons] at hlen
            omega
          exact List.infix_cons (ih rest hlen' hca)

/-- `str.replace(needle, rep)` on a string containing the (non-empty)
needle leaves `rep` as an infix of the result. -/
theorem infix_pyReplace {s needle rep : String} (hn : needle.data ≠ [])
    (h : needle.data <:+: s.data) :
    rep.data <:+: (pyReplace s needle rep).data := by
  unfold pyReplace
  cases hnd : needle.data with
  | nil => exact absurd hnd hn
  | cons n ntail =>
    show rep.data <:+: replaceCore n ntail rep.data s.data
    unfold replaceCore
    exact infix_replaceCoreF s.data.length s.data (le_refl _) (hnd ▸ h)

/-- Every piece of a space-join is an infix of the join. -/
theorem infix_joinTexts : ∀ (ts : List String) (t : String), t ∈ ts →
    t.data <:+: (joinTexts ts).data := by
  intro ts
  induction ts with
  | nil => intro t ht; cases ht
  | cons t0 rest ih =>
    intro t ht
    cases rest with
    | nil =>
      rw [List.mem_singleton] at ht
      rw [ht]
      exact List.infix_refl _
    | cons t1 rest2 =>
      show t.data <:+: (t0 ++ " " ++ joinTexts (t1 :: rest2)).data
      rcases List.mem_cons.1 ht with rfl | ht
      · rw [String.data_append, String.data_append, List.append_assoc]
        exact (List.prefix_append _ _).isInfix
      · have h1 := ih t ht
        have h2 : (joinTexts (t1 :: rest2)).data
            <:+ (t0 ++ " " ++ joinTexts (t1 :: rest2)).data := by
          rw [String.data_append]
          exact List.suffix_append _ _
        exact h1.trans h2.isInfix

/-- A member sentence's text is an infix of the chunk's joined text. -/
theorem infix_joinSentences {s : Sentence} {sl : List Sentence} (h : s ∈ sl) :
    s.text.data <:+: (joinSentences sl).data :=
  infix_joinTexts _ _ (List.mem_map_of_mem _ h)

/-- The assembled-text invariant: an assembled chunk's text is the
space-join of its recorded sentences. -/
def AssembledText (pr : Chunk × GroupOrigin) : Prop :=
  ∀ sl, pr.2 = GroupOrigin.assembled sl → pr.1.text = joinSentences sl

/-- When no remaining sentence exceeds the budget the annotated grouping
loop succeeds, every assembled chunk's text is its sentences' join, and
every sentence — pending in the accumulator, still to be consumed, or
recorded in an already-emitted assembled chunk — ends up recorded in some
assembled chunk of the output. -/
theorem groupLoopA_covers (tok : Tokenizer) (max_tokens overlap_tokens : Int)
    (source section_header : Option String) :
    ∀ (rest : List Sentence) (chunks : List (Chunk × GroupOrigin))
      (current : List Sentence) (curTok : Int),
      (∀ s ∈ rest, tok.count_tokens s.text ≤ max_tokens) →
      (∀ pr ∈ chunks, AssembledText pr) →
      ∃ outA, groupLoopA tok max_tokens overlap_tokens source section_header chunks
          current curTok rest = some outA
        ∧ (∀ pr ∈ outA, AssembledText pr)
        ∧ (∀ s₀, (s₀ ∈ current ∨ s₀ ∈ rest
              ∨ ∃ pr ∈ chunks, ∃ sl, pr.2 = GroupOrigin.assembled sl ∧ s₀ ∈ sl) →
            ∃ pr ∈ outA, ∃ sl, pr.2 = GroupOrigin.assembled sl ∧ s₀ ∈ sl) := by
  intro rest
  induction rest with
  | nil =>
    intro chunks current curTok _ hat
    unfold groupLoopA
    by_cases hcur : current.isEmpty
    · have hnil : current = [] := by
        cases current with
        | nil => rfl
        | cons a l => simp at hcur
      rw [if_pos hcur]
      refine ⟨chunks, rfl, hat, ?_⟩
      intro s₀ hs₀
      rcases hs₀ with hs₀ | hs₀ | hs₀
      · rw [hnil] at hs₀
        cases hs₀
      · cases hs₀
      · exact hs₀
    · rw [if_neg hcur]
      refine ⟨_, rfl, ?_, ?_⟩
      · intro pr hpr
        rcases List.mem_append.1 hpr with hpr | hpr
        · exact hat pr hpr
        · rw [List.mem_singleton] at hpr
          rw [hpr]
          intro sl hsl
          cases hsl
          rfl
      · intro s₀ hs₀
        rcases hs₀ with hs₀ | hs₀ | hs₀
        · exact ⟨(create_chunk tok source current section_header chunks.length,
            GroupOrigin.assembled current), by simp, current, rfl, hs₀⟩
        · cases hs₀
        · obtain ⟨pr, hpr, sl, hsl, hmem⟩ := hs₀
          exact ⟨pr, by simp [hpr], sl, hsl, hmem⟩
  | cons s rest ih =>
    intro chunks current curTok hfits hat
    have hts : ¬tok.count_tokens s.text > max_tokens := by
      have := hfits s (by simp)
      omega
    unfold groupLoopA
    rw [if_neg hts]
    by_cases hover : (decide (curTok + tok.count_tokens s.text > max_tokens)
        && !current.isEmpty) = true
    · simp only [hover, if_true]
      obtain ⟨outA, heq, hatout, hcov⟩ := ih
        (chunks ++ [(create_chunk tok source current section_header chunks.length,
          GroupOrigin.assembled current)])
        (get_overlap_sentences tok overlap_tokens current ++ [s])
        (sentTokenSum tok (get_overlap_sentences tok overlap_tokens current)
          + tok.count_tokens s.text)
        (fun x hx => hfits x (by simp [hx]))
        (by
          intro pr hpr
          rcases List.mem_append.1 hpr with hpr | hpr
          · exact hat pr hpr
          · rw [List.mem_singleton] at hpr
            rw [hpr]
            intro sl hsl
            cases hsl
            rfl)
      refine ⟨outA, heq, hatout, ?_⟩
      intro s₀ hs₀
      rcases hs₀ with hs₀ | hs₀ | hs₀
      · exact hcov s₀ (Or.inr (Or.inr
          ⟨(create_chunk tok source current section_header chunks.length,
            GroupOrigin.assembled current), by simp, current, rfl, hs₀⟩))
      · rcases List.mem_cons.1 hs₀ with rfl | hs₀
        · exact hcov s₀ (Or.inl (by simp))
        · exact hcov s₀ (Or.inr (Or.inl hs₀))
      · obtain ⟨pr, hpr, sl, hsl, hmem⟩ := hs₀
        exact hcov s₀ (Or.inr (Or.inr ⟨pr, by simp [hpr], sl, hsl, hmem⟩))
    · simp only [hover, if_false, Bool.false_eq_true]
      obtain ⟨outA, heq, hatout, hcov⟩ := ih chunks (current ++ [s])
        (curTok + tok.count_tokens s.text)
        (fun x hx => hfits x (by simp [hx])) hat
      refine ⟨outA, heq, hatout, ?_⟩
      intro s₀ hs₀
      rcases hs₀ with hs₀ | hs₀ | hs₀
      · exact hcov s₀ (Or.inl (by simp [hs₀]))
      · rcases List.mem_cons.1 hs₀ with rfl | hs₀
        · exact hcov s₀ (Or.inl (by simp))
        · exact hcov s₀ (Or.inr (Or.inl hs₀))
      · exact hcov s₀ (Or.inr (Or.inr hs₀))

/-- A code-block match puts a backtick in the text. -/
theorem matchCodeBlockAt_backtick {cs : List Char} {p e : Nat}
    (h : matchCodeBlockAt cs p = some e) : '`' ∈ cs := by
  unfold matchCodeBlockAt at h
  split at h
  · rename_i hcond
    simp only [Bool.and_eq_true, Bool.or_eq_true, decide_eq_true_eq] at hcond
    have hsl : slice cs p (p + 3) = "```".data := hcond.2
    have hmem : '`' ∈ slice cs p (p + 3) := by rw [hsl]; decide
    unfold slice at hmem
    exact List.drop_subset _ _ (List.take_subset _ _ hmem)
  · exact Option.noConfusion h

/-- A text with a code-block match does not strip to empty (the guard of
`chunk` passes). -/
theorem strip_nonempty_of_match {cs : List Char} {p e : Nat}
    (h : matchCodeBlockAt cs p = some e) : (pyStrip cs).isEmpty = false := by
  have hb : '`' ∈ cs := matchCodeBlockAt_backtick h
  cases hr : pyStrip cs with
  | nil => exact absurd (all_space_of_pyStrip_eq_nil hr _ hb) (by decide)
  | cons c t => rfl

/-- A singleton extraction's block: its placeholder is
`__CODE_BLOCK_0__` and its span is a sound pattern match. -/
theorem extract_single {cs : List Char} {b : CodeBlock}
    (h : extract_code_blocks cs = [b]) :
    b.placeholder = "__CODE_BLOCK_0__"
      ∧ matchCodeBlockAt cs b.start = some b.stop := by
  have hlen : (scanFrom matchCodeBlockAt cs 0).length = 1 := by
    have hl := congrArg List.length h
    unfold extract_code_blocks at hl
    simpa using hl
  obtain ⟨m, hm⟩ := List.length_eq_one.1 hlen
  have hx : extract_code_blocks cs
      = [⟨⟨slice cs m.1 m.2⟩, m.1, m.2, "__CODE_BLOCK_" ++ pyNatRepr 0 ++ "__"⟩] := by
    unfold extract_code_blocks
    rw [hm]
    rfl
  have hbb := hx.symm.trans h
  have hb : (⟨⟨slice cs m.1 m.2⟩, m.1, m.2,
      "__CODE_BLOCK_" ++ pyNatRepr 0 ++ "__"⟩ : CodeBlock) = b := by
    injection hbb with hb htail
  have hord := scanFrom_ord matchCodeBlockAt cs 0
  rw [hm] at hord
  have hord' : 0 ≤ m.1 ∧ matchCodeBlockAt cs m.1 = some m.2
      ∧ ScanOrd matchCodeBlockAt cs m.2 [] := hord
  constructor
  · rw [← hb]
    rfl
  · rw [← hb]
    exact hord'.2.1

/-- Protecting a text whose extraction is the single block `b` splices in
the placeholder once and records the one replacement. -/
theorem protect_single {cs : List Char} {b : CodeBlock}
    (h : extract_code_blocks cs = [b]) :
    protect_code_blocks true cs
      = (cs.take b.start ++ b.placeholder.data ++ cs.drop b.stop,
        [(b.placeholder, b.code)]) := by
  unfold protect_code_blocks
  simp only [h]
  rfl

/-- C2 counterexample.  Chunking `"` ++ "```" ++ `\naaaaaaaaaaaa\n` ++ "```"
++ `"` with the character tokenizer and `max_tokens = 5` (preserving code
blocks) hard-splits the placeholder sentence: the restored block text is
cut into the four chunks `["```\na", "aaaaa", "aaaaa", "a\n```"]`, and the
extracted block's exact text (20 characters) appears contiguously in none
of them — the claimed atomicity fails. -/
theorem c2_atomicity_counterexample :
    (∃ out, chunkCore characterTokenizer 5 0 true none "```\naaaaaaaaaaaa\n```" none
        = some out
      ∧ ∀ bl ∈ extract_code_blocks ("```\naaaaaaaaaaaa\n```" : String).data,
        ∃ c ∈ out, bl.code.data <:+: c.text.data) ↔ False := by
  constructor
  · rintro ⟨out, hout, hall⟩
    have htexts : (chunkCore characterTokenizer 5 0 true none
        "```\naaaaaaaaaaaa\n```" none).map (List.map fun c => c.text)
        = some ["```\na", "aaaaa", "aaaaa", "a\n```"] := by decide
    rw [hout] at htexts
    have houtt : out.map (fun c => c.text)
        = ["```\na", "aaaaa", "aaaaa", "a\n```"] := by simpa using htexts
    obtain ⟨c, hc, hinf⟩ := hall
      ⟨"```\naaaaaaaaaaaa\n```", 0, 20, "__CODE_BLOCK_0__"⟩ (by decide)
    have hct : c.text ∈ (["```\na", "aaaaa", "aaaaa", "a\n```"] : List String) := by
      rw [← houtt]
      exact List.mem_map_of_mem _ hc
    have hlen := hinf.length_le
    simp only [List.mem_cons, List.not_mem_nil, or_false] at hct
    rcases hct with h | h | h | h <;> rw [h] at hlen <;> exact absurd hlen (by decide)
  · exact False.elim

/-- C2 amended.  When the text's code-block extraction is a single block
and every sentence the pipeline feeds the assembler fits the budget —
so the hard-split escape hatch of the grouping loop never fires —
`chunk` (with `preserve_code_blocks` on) succeeds and the block's exact
original text, fences included, appears contiguously in some single
chunk's text.  (The counterexample shows the unrestricted claim is
false: an oversized restored block is hard-split across chunks.) -/
theorem c2_code_block_atomicity (tok : Tokenizer) (max_tokens overlap_tokens : Int)
    (source section_header : Option String) (text : String) (b : CodeBlock)
    (hone : extract_code_blocks text.data = [b])
    (hfits : ∀ s ∈ pipelineSentences true text.data,
      tok.count_tokens s.text ≤ max_tokens) :
    ∃ out, chunkCore tok max_tokens overlap_tokens true source text section_header
        = some out
      ∧ ∃ c ∈ out, b.code.data <:+: c.text.data := by
  obtain ⟨hph, hmatch⟩ := extract_single hone
  have hphne : b.placeholder.data ≠ [] := by rw [hph]; decide
  have hphws : ∀ c ∈ b.placeholder.data, pyIsSpace c = false := by
    rw [hph]; decide
  have hphpunct : ∀ c ∈ b.placeholder.data, ¬(c = '.' ∨ c = '!' ∨ c = '?') := by
    rw [hph]; decide
  have hprot := protect_single hone
  have hocc : b.placeholder.data
      <:+: text.data.take b.start ++ b.placeholder.data ++ text.data.drop b.stop :=
    ⟨text.data.take b.start, text.data.drop b.stop, rfl⟩
  obtain ⟨s, hsmem, hsinf⟩ := segment_infix hphne hphws hphpunct hocc
  have hpipe : pipelineSentences true text.data
      = (segmentSentencesL
          (text.data.take b.start ++ b.placeholder.data ++ text.data.drop b.stop)).map
            fun s => ⟨restore_code_blocks s.text [(b.placeholder, b.code)],
              s.start, s.endPos⟩ := by
    unfold pipelineSentences
    simp only [hprot]
    rfl
  have hs'mem : (⟨restore_code_blocks s.text [(b.placeholder, b.code)],
      s.start, s.endPos⟩ : Sentence) ∈ pipelineSentences true text.data := by
    rw [hpipe]
    exact List.mem_map_of_mem _ hsmem
  have hs'code : b.code.data
      <:+: (restore_code_blocks s.text [(b.placeholder, b.code)]).data := by
    show b.code.data <:+: (pyReplace s.text b.placeholder b.code).data
    exact infix_pyReplace hphne hsinf
  have hguard : (pyStrip text.data).isEmpty = false := strip_nonempty_of_match hmatch
  obtain ⟨outA, heqA, hatout, hcov⟩ := groupLoopA_covers tok max_tokens overlap_tokens
    source section_header (pipelineSentences true text.data) [] [] 0 hfits
    (fun pr hpr => absurd hpr (List.not_mem_nil pr))
  have hpipene : (pipelineSentences true text.data).isEmpty = false := by
    cases hpp : pipelineSentences true text.data with
    | nil => rw [hpp] at hs'mem; cases hs'mem
    | cons a l => rfl
  have hgroupL : groupLoop tok max_tokens overlap_tokens source section_header
      [] [] 0 (pipelineSentences true text.data) = some (outA.map Prod.fst) := by
    have herase := groupLoopA_fst tok max_tokens overlap_tokens source section_header
      (pipelineSentences true text.data) [] [] 0
    rw [heqA] at herase
    simpa using herase.symm
  have hgroup : group_sentences_into_chunks tok max_tokens overlap_tokens source
      (pipelineSentences true text.data) section_header = some (outA.map Prod.fst) := by
    unfold group_sentences_into_chunks
    rw [hpipene]
    simp only [Bool.false_eq_true, if_false]
    exact hgroupL
  have hchunk : chunkCore tok max_tokens overlap_tokens true source text section_header
      = some ((outA.map Prod.fst).map fun c =>
          mkChunk c.text (c.metadata.withTotalChunks (outA.map Prod.fst).length)
            c.token_counts) := by
    unfold chunkCore
    rw [hguard]
    simp only [Bool.false_eq_true, if_false]
    rw [hgroup]
  obtain ⟨pr, hpr, sl, hsl, hs'in⟩ := hcov _ (Or.inr (Or.inl hs'mem))
  refine ⟨_, hchunk,
    mkChunk pr.1.text (pr.1.metadata.withTotalChunks (outA.map Prod.fst).length)
      pr.1.token_counts, ?_, ?_⟩
  · exact List.mem_map_of_mem _ (List.mem_map_of_mem Prod.fst hpr)
  · have htext : pr.1.text = joinSentences sl := hatout pr hpr sl hsl
    show b.code.data <:+: pr.1.text.data
    rw [htext]
    exact hs'code.trans (infix_joinSentences hs'in)

/-- C2's witness: the single block of `"` ++ "```" ++ `\nx\n` ++ "```" ++
` Ok."` at a budget of 100: the hypotheses hold by evaluation, and some
chunk's text contains the whole fenced block. -/
theorem c2_code_block_atomicity_witness :
    (extract_code_blocks ("```\nx\n``` Ok." : String).data
        = [⟨"```\nx\n```", 0, 9, "__CODE_BLOCK_0__"⟩])
      ∧ (∀ s ∈ pipelineSentences true ("```\nx\n``` Ok." : String).data,
          characterTokenizer.count_tokens s.text ≤ 100)
      ∧ ∃ out, chunkCore characterTokenizer 100 0 true none "```\nx\n``` Ok." none
          = some out
        ∧ ∃ c ∈ out, ("```\nx\n```" : String).data <:+: c.text.data :=
  ⟨by decide, by decide,
   c2_code_block_atomicity characterTokenizer 100 0 none none "```\nx\n``` Ok."
     ⟨"```\nx\n```", 0, 9, "__CODE_BLOCK_0__"⟩ (by decide) (by decide)⟩

end Monkey
